import Mathlib

/-!
Verification of the paradox-detection pipeline (`src/agents.py`): the tolerant
JSON-object extractor, the field normalizers, the report builder (with its
SHA-256-derived report identifier), the report formatter, the chat client's
error taxonomy, and the four-stage pipeline orchestrator.

The JSON data model is embedded as `JVal`.  Numbers are modelled as integers:
JSON documents whose numbers carry a fractional part or an exponent are
floating-point values and are outside this embedding (the parser rejects such
numeric literals), as is text containing lone UTF-16 surrogate escapes.  All
functions are written with structural recursion (fuel-indexed where the source
recursion is not structural) so that every definition evaluates inside the
kernel on concrete inputs.
-/

namespace Paradox

/-- A JSON value as produced by `json.loads`: `null`, booleans, (integer)
numbers, strings, arrays and objects.  Objects are association lists in
insertion order, mirroring Python's insertion-ordered `dict`. -/
inductive JVal where
  | null : JVal
  | bool (b : Bool) : JVal
  | num (n : Int) : JVal
  | str (s : String) : JVal
  | arr (items : List JVal) : JVal
  | obj (fields : List (String × JVal)) : JVal
deriving Repr

/-- A parsed JSON object (a mapping), the type stage results live at. -/
abbrev JObj := List (String × JVal)

mutual
/-- Decidable equality of JSON values (hand-written because the nested
inductive defeats the deriving handler). -/
def JVal.decEq : (a b : JVal) → Decidable (a = b)
  | .null, .null => .isTrue rfl
  | .null, .bool _ => .isFalse (fun h => JVal.noConfusion h)
  | .null, .num _ => .isFalse (fun h => JVal.noConfusion h)
  | .null, .str _ => .isFalse (fun h => JVal.noConfusion h)
  | .null, .arr _ => .isFalse (fun h => JVal.noConfusion h)
  | .null, .obj _ => .isFalse (fun h => JVal.noConfusion h)
  | .bool _, .null => .isFalse (fun h => JVal.noConfusion h)
  | .bool x, .bool y =>
    if h : x = y then .isTrue (by rw [h])
    else .isFalse (fun e => h (JVal.bool.inj e))
  | .bool _, .num _ => .isFalse (fun h => JVal.noConfusion h)
  | .bool _, .str _ => .isFalse (fun h => JVal.noConfusion h)
  | .bool _, .arr _ => .isFalse (fun h => JVal.noConfusion h)
  | .bool _, .obj _ => .isFalse (fun h => JVal.noConfusion h)
  | .num _, .null => .isFalse (fun h => JVal.noConfusion h)
  | .num _, .bool _ => .isFalse (fun h => JVal.noConfusion h)
  | .num x, .num y =>
    if h : x = y then .isTrue (by rw [h])
    else .isFalse (fun e => h (JVal.num.inj e))
  | .num _, .str _ => .isFalse (fun h => JVal.noConfusion h)
  | .num _, .arr _ => .isFalse (fun h => JVal.noConfusion h)
  | .num _, .obj _ => .isFalse (fun h => JVal.noConfusion h)
  | .str _, .null => .isFalse (fun h => JVal.noConfusion h)
  | .str _, .bool _ => .isFalse (fun h => JVal.noConfusion h)
  | .str _, .num _ => .isFalse (fun h => JVal.noConfusion h)
  | .str x, .str y =>
    if h : x = y then .isTrue (by rw [h])
    else .isFalse (fun e => h (JVal.str.inj e))
  | .str _, .arr _ => .isFalse (fun h => JVal.noConfusion h)
  | .str _, .obj _ => .isFalse (fun h => JVal.noConfusion h)
  | .arr _, .null => .isFalse (fun h => JVal.noConfusion h)
  | .arr _, .bool _ => .isFalse (fun h => JVal.noConfusion h)
  | .arr _, .num _ => .isFalse (fun h => JVal.noConfusion h)
  | .arr _, .str _ => .isFalse (fun h => JVal.noConfusion h)
  | .arr x, .arr y =>
    match JVal.decEqList x y with
    | .isTrue h => .isTrue (by rw [h])
    | .isFalse h => .isFalse (fun e => h (JVal.arr.inj e))
  | .arr _, .obj _ => .isFalse (fun h => JVal.noConfusion h)
  | .obj _, .null => .isFalse (fun h => JVal.noConfusion h)
  | .obj _, .bool _ => .isFalse (fun h => JVal.noConfusion h)
  | .obj _, .num _ => .isFalse (fun h => JVal.noConfusion h)
  | .obj _, .str _ => .isFalse (fun h => JVal.noConfusion h)
  | .obj _, .arr _ => .isFalse (fun h => JVal.noConfusion h)
  | .obj x, .obj y =>
    match JVal.decEqFields x y with
    | .isTrue h => .isTrue (by rw [h])
    | .isFalse h => .isFalse (fun e => h (JVal.obj.inj e))

/-- Decidable equality of JSON value lists. -/
def JVal.decEqList : (a b : List JVal) → Decidable (a = b)
  | [], [] => .isTrue rfl
  | [], _ :: _ => .isFalse (fun h => List.noConfusion h)
  | _ :: _, [] => .isFalse (fun h => List.noConfusion h)
  | x :: xs, y :: ys =>
    match JVal.decEq x y with
    | .isTrue h1 =>
      match JVal.decEqList xs ys with
      | .isTrue h2 => .isTrue (by rw [h1, h2])
      | .isFalse h2 => .isFalse (fun e => h2 (List.cons.inj e).2)
    | .isFalse h1 => .isFalse (fun e => h1 (List.cons.inj e).1)

/-- Decidable equality of JSON field lists. -/
def JVal.decEqFields : (a b : List (String × JVal)) → Decidable (a = b)
  | [], [] => .isTrue rfl
  | [], _ :: _ => .isFalse (fun h => List.noConfusion h)
  | _ :: _, [] => .isFalse (fun h => List.noConfusion h)
  | (k1, v1) :: xs, (k2, v2) :: ys =>
    if hk : k1 = k2 then
      match JVal.decEq v1 v2 with
      | .isTrue hv =>
        match JVal.decEqFields xs ys with
        | .isTrue ht => .isTrue (by rw [hk, hv, ht])
        | .isFalse ht => .isFalse (fun e => ht (List.cons.inj e).2)
      | .isFalse hv =>
        .isFalse (fun e => hv (congrArg Prod.snd (List.cons.inj e).1))
    else
      .isFalse (fun e => hk (congrArg Prod.fst (List.cons.inj e).1))
end

instance : DecidableEq JVal := JVal.decEq

/-- The opening-brace character, kept as a named constant. -/
def lbrace : Char := Char.ofNat 123

/-- The closing-brace character, kept as a named constant. -/
def rbrace : Char := Char.ofNat 125

/-- The backtick character, kept as a named constant. -/
def btick : Char := Char.ofNat 96

/-- Whitespace for Python's no-argument `str.strip`: the ASCII whitespace and
separator control characters plus the common Unicode space code points. -/
def pyWs (c : Char) : Bool :=
  let n := c.toNat
  (9 ≤ n && n ≤ 13) || n == 32 || (28 ≤ n && n ≤ 31) || n == 133 || n == 160 ||
  n == 0x1680 || (0x2000 ≤ n && n ≤ 0x200a) || n == 0x2028 || n == 0x2029 ||
  n == 0x202f || n == 0x205f || n == 0x3000

/-- Left-trim of a character list by a character predicate. -/
def trimLeftBy (p : Char → Bool) (l : List Char) : List Char := l.dropWhile p

/-- Right-trim of a character list by a character predicate. -/
def trimRightBy (p : Char → Bool) (l : List Char) : List Char :=
  (l.reverse.dropWhile p).reverse

/-- Python `str.strip()` on a character list. -/
def stripList (l : List Char) : List Char := trimRightBy pyWs (trimLeftBy pyWs l)

/-- Python `str.strip()` returning a `String`. -/
def pyStrip (s : String) : String := String.mk (stripList s.data)

/-- The decimal digit character for a value below ten. -/
def digitChar (d : Nat) : Char := Char.ofNat (48 + d)

/-- Decimal digits of a natural number, most significant first (fuel-indexed;
the fuel `n + 1` always suffices since the argument is divided by ten). -/
def natCharsGo : Nat → Nat → List Char → List Char
  | 0, _, acc => acc
  | fuel + 1, n, acc =>
    if n < 10 then digitChar n :: acc
    else natCharsGo fuel (n / 10) (digitChar (n % 10) :: acc)

/-- Decimal representation of a natural number, as Python `str` prints it. -/
def natChars (n : Nat) : List Char := natCharsGo (n + 1) n []

/-- Decimal representation of an integer, as Python `str` prints it. -/
def intChars : Int → List Char
  | .ofNat n => natChars n
  | .negSucc m => '-' :: natChars (m + 1)

/-- Lowercase hexadecimal digit character for a value below sixteen. -/
def hexDigitChar (d : Nat) : Char :=
  if d < 10 then Char.ofNat (48 + d) else Char.ofNat (87 + d)

/-- JSON escape of one character as `json.dumps(..., ensure_ascii=False)`
performs it: quote, backslash and the control characters are escaped, the
short forms being used for backspace, tab, newline, form feed and carriage
return; everything else is emitted verbatim. -/
def escapeChar (c : Char) : List Char :=
  if c = '"' then ['\\', '"']
  else if c = '\\' then ['\\', '\\']
  else if c.toNat = 8 then ['\\', 'b']
  else if c = '\t' then ['\\', 't']
  else if c = '\n' then ['\\', 'n']
  else if c.toNat = 12 then ['\\', 'f']
  else if c = '\r' then ['\\', 'r']
  else if c.toNat < 32 then
    ['\\', 'u', '0', '0', hexDigitChar (c.toNat / 16), hexDigitChar (c.toNat % 16)]
  else [c]

/-- JSON escape of a character list. -/
def escapeList : List Char → List Char
  | [] => []
  | c :: cs => escapeChar c ++ escapeList cs

mutual
/-- Serialization of a JSON value exactly as `json.dumps(v, ensure_ascii=False)`
renders it with the default separators: `", "` between items and `": "` after
keys, no spaces inside empty containers. -/
def dumpsV : JVal → List Char
  | .null => "null".data
  | .bool true => "true".data
  | .bool false => "false".data
  | .num n => intChars n
  | .str s => '"' :: escapeList s.data ++ ['"']
  | .arr [] => "[]".data
  | .arr (x :: xs) => '[' :: (dumpsV x ++ dumpsItems xs) ++ [']']
  | .obj [] => lbrace :: [rbrace]
  | .obj ((k, v) :: fs) =>
    lbrace :: ('"' :: escapeList k.data ++ ['"', ':', ' '] ++ dumpsV v ++ dumpsFields fs)
      ++ [rbrace]

/-- Serialization of the remaining array items, each preceded by `", "`. -/
def dumpsItems : List JVal → List Char
  | [] => []
  | x :: xs => ',' :: ' ' :: dumpsV x ++ dumpsItems xs

/-- Serialization of the remaining object fields, each preceded by `", "`. -/
def dumpsFields : List (String × JVal) → List Char
  | [] => []
  | (k, v) :: fs =>
    ',' :: ' ' :: '"' :: escapeList k.data ++ ['"', ':', ' '] ++ dumpsV v ++ dumpsFields fs
end

/-- Lexicographic comparison of character lists by code point, as Python
compares `str` values. -/
def charsLE : List Char → List Char → Bool
  | [], _ => true
  | _ :: _, [] => false
  | a :: as, b :: bs =>
    if a.toNat < b.toNat then true
    else if b.toNat < a.toNat then false
    else charsLE as bs

/-- Key order used by `json.dumps(..., sort_keys=True)`: lexicographic string
comparison on code points, as Python `sorted` compares `str`. -/
def keyLE (a b : String × JVal) : Prop := charsLE a.1.data b.1.data = true

instance : DecidableRel keyLE :=
  fun a b => inferInstanceAs (Decidable (charsLE a.1.data b.1.data = true))

mutual
/-- Recursively sort every object's fields by key.  Serializing the result
with `dumpsV` is exactly `json.dumps(v, ensure_ascii=False, sort_keys=True)`,
which sorts the keys of every mapping it serializes. -/
def sortKeysRec : JVal → JVal
  | .null => .null
  | .bool b => .bool b
  | .num n => .num n
  | .str s => .str s
  | .arr xs => .arr (sortKeysList xs)
  | .obj fs => .obj (List.insertionSort keyLE (sortKeysFields fs))

/-- Key sorting mapped over array elements. -/
def sortKeysList : List JVal → List JVal
  | [] => []
  | x :: xs => sortKeysRec x :: sortKeysList xs

/-- Key sorting mapped over field values. -/
def sortKeysFields : List (String × JVal) → List (String × JVal)
  | [] => []
  | (k, v) :: fs => (k, sortKeysRec v) :: sortKeysFields fs
end

/-- UTF-8 encoding of one character, as `str.encode("utf-8")` produces it. -/
def utf8Char (c : Char) : List Nat :=
  let n := c.toNat
  if n < 0x80 then [n]
  else if n < 0x800 then [0xc0 + n / 0x40, 0x80 + n % 0x40]
  else if n < 0x10000 then
    [0xe0 + n / 0x1000, 0x80 + (n / 0x40) % 0x40, 0x80 + n % 0x40]
  else
    [0xf0 + n / 0x40000, 0x80 + (n / 0x1000) % 0x40, 0x80 + (n / 0x40) % 0x40,
      0x80 + n % 0x40]

/-- UTF-8 encoding of a character list as a byte list. -/
def utf8List : List Char → List Nat
  | [] => []
  | c :: cs => utf8Char c ++ utf8List cs

/-- Reduction of a natural number to a 32-bit word. -/
def w32 (n : Nat) : Nat := n % 4294967296

/-- Right rotation of a 32-bit word by `k` positions. -/
def rotr (k x : Nat) : Nat := (x >>> k) ||| w32 (x <<< (32 - k))

/-- The SHA-256 `Ch` function (the complement is a subtraction from the
all-ones word, which agrees with bitwise negation on 32-bit values). -/
def shaCh (x y z : Nat) : Nat := (x &&& y) ^^^ ((4294967295 - w32 x) &&& z)

/-- The SHA-256 `Maj` function. -/
def shaMaj (x y z : Nat) : Nat := (x &&& y) ^^^ (x &&& z) ^^^ (y &&& z)

/-- The SHA-256 big sigma-0 function. -/
def bigSigma0 (x : Nat) : Nat := rotr 2 x ^^^ rotr 13 x ^^^ rotr 22 x

/-- The SHA-256 big sigma-1 function. -/
def bigSigma1 (x : Nat) : Nat := rotr 6 x ^^^ rotr 11 x ^^^ rotr 25 x

/-- The SHA-256 small sigma-0 function. -/
def smallSigma0 (x : Nat) : Nat := rotr 7 x ^^^ rotr 18 x ^^^ (x >>> 3)

/-- The SHA-256 small sigma-1 function. -/
def smallSigma1 (x : Nat) : Nat := rotr 17 x ^^^ rotr 19 x ^^^ (x >>> 10)

/-- The SHA-256 round constants. -/
def shaK : List Nat :=
  [1116352408, 1899447441, 3049323471, 3921009573, 961987163, 1508970993,
   2453635748, 2870763221, 3624381080, 310598401, 607225278, 1426881987,
   1925078388, 2162078206, 2614888103, 3248222580, 3835390401, 4022224774,
   264347078, 604807628, 770255983, 1249150122, 1555081692, 1996064986,
   2554220882, 2821834349, 2952996808, 3210313671, 3336571891, 3584528711,
   113926993, 338241895, 666307205, 773529912, 1294757372, 1396182291,
   1695183700, 1986661051, 2177026350, 2456956037, 2730485921, 2820302411,
   3259730800, 3345764771, 3516065817, 3600352804, 4094571909, 275423344,
   430227734, 506948616, 659060556, 883997877, 958139571, 1322822218,
   1537002063, 1747873779, 1955562222, 2024104815, 2227730452, 2361852424,
   2428436474, 2756734187, 3204031479, 3329325298]

/-- The SHA-256 initial hash state. -/
def shaH0 : List Nat :=
  [1779033703, 3144134277, 1013904242, 2773480762,
   1359893119, 2600822924, 528734635, 1541459225]

/-- Big-endian byte decomposition of a value into `k` bytes. -/
def beBytes : Nat → Nat → List Nat
  | 0, _ => []
  | k + 1, v => beBytes k (v / 256) ++ [v % 256]

/-- SHA-256 padding: a `0x80` byte, zero bytes to 56 mod 64, and the bit
length as a big-endian 64-bit integer. -/
def sha256Pad (msg : List Nat) : List Nat :=
  let len := msg.length
  let zeros := (64 - (len + 9) % 64) % 64
  msg ++ 128 :: List.replicate zeros 0 ++ beBytes 8 (len * 8)

/-- Grouping of a byte list into big-endian 32-bit words. -/
def toWords : List Nat → List Nat
  | b0 :: b1 :: b2 :: b3 :: rest =>
    (((b0 * 256 + b1) * 256 + b2) * 256 + b3) :: toWords rest
  | _ => []

/-- Message-schedule extension: starting from the sixteen block words
(newest first in the accumulator), produce the remaining 48 words. -/
def scheduleGo : Nat → List Nat → List Nat
  | 0, acc => acc.reverse
  | k + 1, acc =>
    let g (i : Nat) : Nat := acc.getD i 0
    scheduleGo k (w32 (smallSigma1 (g 1) + g 6 + smallSigma0 (g 14) + g 15) :: acc)

/-- The 64-word message schedule of one block. -/
def schedule (ws : List Nat) : List Nat := scheduleGo 48 ws.reverse

/-- One SHA-256 round on the working state `[a, b, c, d, e, f, g, h]`, where
`kw` is the sum of the round constant and the schedule word. -/
def shaRound (st : List Nat) (kw : Nat) : List Nat :=
  match st with
  | [a, b, c, d, e, f, g, h] =>
    let t1 := w32 (h + bigSigma1 e + shaCh e f g + kw)
    let t2 := w32 (bigSigma0 a + shaMaj a b c)
    [w32 (t1 + t2), a, b, c, w32 (d + t1), e, f, g]
  | st => st

/-- Compression of one 16-word block into the hash state. -/
def compressBlock (h : List Nat) (blockWords : List Nat) : List Nat :=
  let kw := List.zipWith (fun k wi => w32 (k + wi)) shaK (schedule blockWords)
  List.zipWith (fun a b => w32 (a + b)) h (kw.foldl shaRound h)

/-- Iterated block compression over the padded word stream. -/
def processBlocks : List Nat → List Nat → List Nat
  | w0 :: w1 :: w2 :: w3 :: w4 :: w5 :: w6 :: w7 ::
      w8 :: w9 :: w10 :: w11 :: w12 :: w13 :: w14 :: w15 :: rest, h =>
    processBlocks rest
      (compressBlock h [w0, w1, w2, w3, w4, w5, w6, w7, w8, w9, w10, w11, w12, w13, w14, w15])
  | _, h => h

/-- Lowercase hexadecimal rendering of one 32-bit word (eight digits). -/
def wordHex (w : Nat) : List Char :=
  [hexDigitChar (w / 0x10000000 % 16), hexDigitChar (w / 0x1000000 % 16),
   hexDigitChar (w / 0x100000 % 16), hexDigitChar (w / 0x10000 % 16),
   hexDigitChar (w / 0x1000 % 16), hexDigitChar (w / 0x100 % 16),
   hexDigitChar (w / 0x10 % 16), hexDigitChar (w % 16)]

/-- Hexadecimal rendering of a word list. -/
def wordsHex : List Nat → List Char
  | [] => []
  | w :: ws => wordHex w ++ wordsHex ws

/-- The SHA-256 hex digest of a byte list, as `hashlib.sha256(b).hexdigest()`
returns it. -/
def sha256Hex (msg : List Nat) : String :=
  String.mk (wordsHex (processBlocks (toWords (sha256Pad msg)) shaH0))

/-- Escape of one character inside a Python `repr` string literal quoted by
`q`: backslash, the quote character, and the short control escapes are
escaped; other control characters (and delete) use `\xHH`. -/
def pyReprEsc (q : Char) (c : Char) : List Char :=
  if c = '\\' then ['\\', '\\']
  else if c = q then ['\\', q]
  else if c = '\t' then ['\\', 't']
  else if c = '\n' then ['\\', 'n']
  else if c = '\r' then ['\\', 'r']
  else if c.toNat < 32 || c.toNat = 127 then
    ['\\', 'x', hexDigitChar (c.toNat / 16), hexDigitChar (c.toNat % 16)]
  else [c]

/-- Repr escape mapped over a character list. -/
def pyReprEscList (q : Char) : List Char → List Char
  | [] => []
  | c :: cs => pyReprEsc q c ++ pyReprEscList q cs

/-- Python `repr` of a string: single quotes unless the text contains a single
quote and no double quote.  (Non-printable code points beyond ASCII keep their
verbatim form here; none of the source's sentinel strings contain any.) -/
def pyReprStr (s : String) : List Char :=
  let q : Char := if s.data.contains '\'' && !(s.data.contains '"') then '"' else '\''
  q :: pyReprEscList q s.data ++ [q]

mutual
/-- Python `repr` of a JSON-loaded value: `None`, `True`/`False`, decimal
integers, quoted strings, and bracketed containers with `", "` separators. -/
def pyReprV : JVal → List Char
  | .null => "None".data
  | .bool true => "True".data
  | .bool false => "False".data
  | .num n => intChars n
  | .str s => pyReprStr s
  | .arr [] => "[]".data
  | .arr (x :: xs) => '[' :: (pyReprV x ++ pyReprItems xs) ++ [']']
  | .obj [] => lbrace :: [rbrace]
  | .obj ((k, v) :: fs) =>
    lbrace :: (pyReprStr k ++ ':' :: ' ' :: pyReprV v ++ pyReprFields fs) ++ [rbrace]

/-- Repr of the remaining list items, each preceded by `", "`. -/
def pyReprItems : List JVal → List Char
  | [] => []
  | x :: xs => ',' :: ' ' :: pyReprV x ++ pyReprItems xs

/-- Repr of the remaining dict entries, each preceded by `", "`. -/
def pyReprFields : List (String × JVal) → List Char
  | [] => []
  | (k, v) :: fs => ',' :: ' ' :: pyReprStr k ++ ':' :: ' ' :: pyReprV v ++ pyReprFields fs
end

/-- Python `str()` of a JSON-loaded value: a string is itself; everything
else renders by `repr` (`None`, `True`, `False`, decimal integers,
container reprs). -/
def pyStr : JVal → String
  | .str s => s
  | v => String.mk (pyReprV v)

/-- The composite `str(value).strip()` that the normalizers apply. -/
def pyStrTrim (v : JVal) : String := pyStrip (pyStr v)

/-- Python `dict.get(key)` on an object: the first binding of the key, or
`None` when absent (parsed objects never carry duplicate keys). -/
def pyGet (fs : JObj) (k : String) : JVal :=
  match fs.lookup k with
  | some v => v
  | none => .null

/-- Python `dict.get(key, default)` on an object. -/
def pyGetD (fs : JObj) (k : String) (d : JVal) : JVal :=
  match fs.lookup k with
  | some v => v
  | none => d

/-- The `_as_string_list` normalizer: a list keeps the trimmed stringification
of each element, dropping the ones that trim to empty; `None` becomes the
empty list; any other value becomes a singleton of its trimmed
stringification if that is non-empty, else the empty list. -/
def asStringList : JVal → List String
  | .arr xs => (xs.map pyStrTrim).filter (fun s => !(s == ""))
  | .null => []
  | v => let text := pyStrTrim v; if text = "" then [] else [text]

/-- The `_text_or_na` normalizer: the trimmed stringification, or the literal
sentinel `"N/A"` when that trims to empty. -/
def textOrNA (v : JVal) : String :=
  let text := pyStrTrim v
  if text = "" then "N/A" else text

/-- The `_phase_1_to_core_vars` normalizer: the normalized `core_variables`
field when non-empty; otherwise the legacy `variables` field, flattening a
mapping's values in iteration order, or normalizing it directly when it is
not a mapping. -/
def phase1ToCoreVars (phase1 : JObj) : List String :=
  let varsList := asStringList (pyGet phase1 "core_variables")
  if varsList.isEmpty then
    match pyGet phase1 "variables" with
    | .obj legacy => (legacy.map (fun kv => asStringList kv.2)).flatten
    | legacy => asStringList legacy
  else varsList

/-- One entry of `_s1_internal_knowledge_items`: a mapping keeps the trimmed
`item` field, any other value keeps its trimmed stringification; empty
results are dropped by the caller. -/
def s1EntryText : JVal → String
  | .obj efs => pyStrTrim (pyGetD efs "item" (.str ""))
  | e => pyStrTrim e

/-- The `_s1_internal_knowledge_items` normalizer over the S1 stage result. -/
def s1KnowledgeItems (s1 : JObj) : List String :=
  match pyGet s1 "internal_knowledge" with
  | .arr entries => (entries.map s1EntryText).filter (fun s => !(s == ""))
  | raw => asStringList raw

/-- One branch record of the report: name, result and goal impact, each
already normalized by `_text_or_na`. -/
structure BranchRecord where
  name : String
  result : String
  goalImpact : String
deriving DecidableEq, Repr

/-- The logical-breakdown section of the report. -/
structure LogicalBreakdown where
  primaryGoal : String
  coreVariables : List String
  retrievedInternalKnowledge : List String
  internalKnowledgeUsed : List String
  knowledgeGaps : List String
  hiddenAssumptions : List String
  realityGaps : List String
deriving DecidableEq, Repr

/-- The paradox-diagnosis section of the report. -/
structure Diagnosis where
  type : String
  reasoning : String
  contradictionPath : List String
deriving DecidableEq, Repr

/-- The verbatim raw stage results retained for audit. -/
structure RawPhases where
  s1KnowledgeRetrieval : JObj
  phase1 : JObj
  phase2 : JObj
  phase3 : JObj
deriving DecidableEq, Repr

/-- The report structure assembled by `_build_report` (every key the produced
mapping carries, with the same nesting). -/
structure Report where
  reportId : String
  logicalBreakdown : LogicalBreakdown
  stressTestResults : List BranchRecord
  paradoxDiagnosis : Diagnosis
  suggestedMitigation : List String
  rawPhases : RawPhases
deriving DecidableEq, Repr

/-- The canonical digest structure `_build_report` serializes: the original
statement and the four raw stage results under their five fixed keys. -/
def digestVal (userInput : String) (s1 p1 p2 p3 : JObj) : JVal :=
  .obj [("user_input", .str userInput), ("s1_knowledge", .obj s1),
        ("phase_1", .obj p1), ("phase_2", .obj p2), ("phase_3", .obj p3)]

/-- The serialized digest source: `json.dumps(..., ensure_ascii=False,
sort_keys=True)` of the digest structure. -/
def digestSrc (userInput : String) (s1 p1 p2 p3 : JObj) : List Char :=
  dumpsV (sortKeysRec (digestVal userInput s1 p1 p2 p3))

/-- The report identifier: the first 12 hex characters of the SHA-256 digest
of the UTF-8 encoded digest source. -/
def reportIdOf (userInput : String) (s1 p1 p2 p3 : JObj) : String :=
  String.mk ((sha256Hex (utf8List (digestSrc userInput s1 p1 p2 p3))).data.take 12)

/-- Normalization of one Phase 2 branch entry (a mapping) into a branch
record via `_text_or_na` with empty-string defaults. -/
def branchOfItem (item : JObj) : BranchRecord :=
  { name := textOrNA (pyGetD item "name" (.str ""))
    result := textOrNA (pyGetD item "result" (.str ""))
    goalImpact := textOrNA (pyGetD item "goal_impact" (.str "")) }

/-- Branch extraction from the Phase 2 result: entries of a `branches` list
that are mappings, in order, non-mapping entries silently skipped; any other
shape of `branches` yields no branches. -/
def buildBranches (p2 : JObj) : List BranchRecord :=
  match pyGet p2 "branches" with
  | .arr items =>
    items.filterMap (fun it =>
      match it with
      | .obj fs => some (branchOfItem fs)
      | _ => none)
  | _ => []

/-- The `_build_report` assembly: the digest-derived identifier, every
normalized section, and the verbatim raw stage results. -/
def buildReport (userInput : String) (s1 p1 p2 p3 : JObj) : Report :=
  { reportId := reportIdOf userInput s1 p1 p2 p3
    logicalBreakdown :=
      { primaryGoal := pyStrTrim (pyGetD p1 "stated_goal" (.str ""))
        coreVariables := phase1ToCoreVars p1
        retrievedInternalKnowledge := s1KnowledgeItems s1
        internalKnowledgeUsed := asStringList (pyGet p1 "internal_knowledge_used")
        knowledgeGaps := asStringList (pyGet s1 "knowledge_gaps")
        hiddenAssumptions := asStringList (pyGet p1 "hidden_assumptions")
        realityGaps := asStringList (pyGet p1 "reality_gaps") }
    stressTestResults := buildBranches p2
    paradoxDiagnosis :=
      { type :=
          let t := pyStrTrim (pyGetD p3 "paradox_type" (.str "None"))
          if t = "" then "None" else t
        reasoning := pyStrTrim (pyGetD p3 "reasoning" (.str ""))
        contradictionPath := asStringList (pyGet p3 "contradiction_path") }
    suggestedMitigation := asStringList (pyGet p3 "mitigation")
    rawPhases :=
      { s1KnowledgeRetrieval := s1, phase1 := p1, phase2 := p2, phase3 := p3 } }

/-- Lines rendered for one indented list: one line per item, or a single
`"  - N/A"` placeholder when the list is empty. -/
def itemLines (items : List String) : List String :=
  match items with
  | [] => ["  - N/A"]
  | items => items.map (fun it => "  - " ++ it)

/-- Lines rendered for the numbered branch records. -/
def branchLines : Nat → List BranchRecord → List String
  | _, [] => []
  | idx, b :: bs =>
    ("- Branch " ++ toString idx ++ ": " ++ b.name) ::
    ("  Result: " ++ b.result) ::
    ("  Goal Impact: " ++ b.goalImpact) :: branchLines (idx + 1) bs

/-- The lines of the `format_report` rendering, in order: the fixed
four-section text layout.  The `dict.get` defaults of the source never fire
on builder-produced reports, whose mappings always carry every key; the
structure records exactly those keys. -/
def formatLines (r : Report) : List String :=
  let logical := r.logicalBreakdown
  let diagnosis := r.paradoxDiagnosis
  let coreVars := String.intercalate ", " logical.coreVariables
  ["REPORT ID: " ++ r.reportId, "", "1. LOGICAL BREAKDOWN",
   "- Primary Goal: " ++ logical.primaryGoal,
   "- Core Variables: " ++ (if coreVars = "" then "N/A" else coreVars),
   "- Retrieved Internal Knowledge (S1):"] ++
  itemLines logical.retrievedInternalKnowledge ++
  ["- Internal Knowledge Used (Phase I):"] ++
  itemLines logical.internalKnowledgeUsed ++
  ["- Knowledge Gaps:"] ++
  itemLines logical.knowledgeGaps ++
  ["- Hidden Assumptions:"] ++
  itemLines logical.hiddenAssumptions ++
  ["- Reality Gaps:"] ++
  itemLines logical.realityGaps ++
  ["", "2. STRESS TEST RESULTS (Phase II)"] ++
  (match r.stressTestResults with
   | [] => ["- N/A"]
   | branches => branchLines 1 branches) ++
  ["", "3. PARADOX DIAGNOSIS (Phase III)",
   "- Type: " ++ diagnosis.type,
   "- Reasoning: " ++ (if diagnosis.reasoning = "" then "N/A" else diagnosis.reasoning),
   "- Contradiction Path:"] ++
  itemLines diagnosis.contradictionPath ++
  ["", "4. SUGGESTED MITIGATION"] ++
  (match r.suggestedMitigation with
   | [] => ["- N/A"]
   | items => items.map (fun it => "- " ++ it))

/-- The `format_report` renderer: its lines joined with newlines. -/
def formatReport (r : Report) : String :=
  String.intercalate "\n" (formatLines r)

/-- Whether a line is one of the four fixed section headers. -/
def isHeader (s : String) : Bool :=
  decide (s = "1. LOGICAL BREAKDOWN") || decide (s = "2. STRESS TEST RESULTS (Phase II)")
    || decide (s = "3. PARADOX DIAGNOSIS (Phase III)") || decide (s = "4. SUGGESTED MITIGATION")

/-- JSON grammar whitespace (`json.loads` skips exactly these four). -/
def jsonWsChar (c : Char) : Bool := c == ' ' || c == '\t' || c == '\n' || c == '\r'

/-- Value of one hexadecimal digit character. -/
def hexVal? (c : Char) : Option Nat :=
  if c.isDigit then some (c.toNat - 48)
  else if 'a' ≤ c ∧ c ≤ 'f' then some (c.toNat - 87)
  else if 'A' ≤ c ∧ c ≤ 'F' then some (c.toNat - 55)
  else none

/-- A character from a code point, when the code point is a valid scalar. -/
def charOfNat? (n : Nat) : Option Char :=
  if h : n.isValidChar then some (Char.ofNatAux n h) else none

/-- The character a single-letter escape denotes, when the letter is one of
the eight `json.loads` accepts. -/
def escDecode (e : Char) : Option Char :=
  if e = '"' then some '"'
  else if e = '\\' then some '\\'
  else if e = '/' then some '/'
  else if e = 'b' then some (Char.ofNat 8)
  else if e = 'f' then some (Char.ofNat 12)
  else if e = 'n' then some '\n'
  else if e = 'r' then some '\r'
  else if e = 't' then some '\t'
  else none

/-- Four hexadecimal digits off the front, as a number. -/
def parseHex4 : List Char → Option (Nat × List Char)
  | h1 :: h2 :: h3 :: h4 :: rest =>
    match hexVal? h1, hexVal? h2, hexVal? h3, hexVal? h4 with
    | some a, some b, some c, some d =>
      some (((a * 16 + b) * 16 + c) * 16 + d, rest)
    | _, _, _, _ => none
  | _ => none

/-- Decoding of a `\u` escape, the `\u` already consumed: four hex digits,
and when they land in the high-surrogate range a mandatory low-surrogate
partner.  A lone surrogate, which Python would keep as an unpaired surrogate
code unit, is unrepresentable in a scalar string and is modelled as a
failure. -/
def parseU (cs : List Char) : Option (Char × List Char) :=
  match parseHex4 cs with
  | none => none
  | some (n, cs3) =>
    if 0xd800 ≤ n ∧ n ≤ 0xdbff then
      match cs3 with
      | u1 :: u2 :: cs3b =>
        if u1 = '\\' ∧ u2 = 'u' then
          match parseHex4 cs3b with
          | some (m, cs4) =>
            if 0xdc00 ≤ m ∧ m ≤ 0xdfff then
              match charOfNat? (0x10000 + (n - 0xd800) * 0x400 + (m - 0xdc00)) with
              | some ch => some (ch, cs4)
              | none => none
            else none
          | none => none
        else none
      | _ => none
    else if 0xdc00 ≤ n ∧ n ≤ 0xdfff then none
    else
      match charOfNat? n with
      | some ch => some (ch, cs3)
      | none => none

/-- Parse of a JSON string body (after the opening quote) up to and past the
closing quote, decoding the escapes `json.loads` accepts.  Unescaped control
characters are rejected (strict mode).  The fuel only bounds recursion
depth; `length + 1` always suffices because every step consumes input. -/
def parseStringBody : Nat → List Char → Option (List Char × List Char)
  | 0, _ => none
  | _ + 1, [] => none
  | fuel + 1, c :: cs =>
    if c = '"' then some ([], cs)
    else if c = '\\' then
      match cs with
      | [] => none
      | e :: cs2 =>
        if e = 'u' then
          match parseU cs2 with
          | some (ch, cs3) =>
            match parseStringBody fuel cs3 with
            | some (sd, rest) => some (ch :: sd, rest)
            | none => none
          | none => none
        else
          match escDecode e with
          | some ch =>
            match parseStringBody fuel cs2 with
            | some (sd, rest) => some (ch :: sd, rest)
            | none => none
          | none => none
    else if c.toNat < 32 then none
    else
      match parseStringBody fuel cs with
      | some (sd, rest) => some (c :: sd, rest)
      | none => none

/-- Maximal leading run of decimal digit characters. -/
def takeDigits : List Char → List Char × List Char
  | [] => ([], [])
  | c :: cs =>
    if c.isDigit then
      let p := takeDigits cs
      (c :: p.1, p.2)
    else ([], c :: cs)

/-- Value of a decimal digit string, accumulated left to right. -/
def digitsToNat : List Char → Nat → Nat
  | [], acc => acc
  | c :: cs, acc => digitsToNat cs (acc * 10 + (c.toNat - 48))

/-- Whether the text continues with a fractional part or exponent tag, which
would make the number a floating-point literal. -/
def floatFollows : List Char → Bool
  | r :: _ => r == '.' || r == 'e' || r == 'E'
  | [] => false

/-- Parse of the unsigned part of a JSON number (no leading zeros), negated
when a minus sign was consumed.  A following fractional part or exponent
would denote a floating-point value, which is outside this embedding and is
rejected here. -/
def parseNumAbs (neg : Bool) (l : List Char) : Option (JVal × List Char) :=
  match takeDigits l with
  | ([], _) => none
  | (d :: ds, rest) =>
    if d = '0' ∧ ds ≠ [] then none
    else if floatFollows rest then none
    else
      some (.num (if neg then -Int.ofNat (digitsToNat (d :: ds) 0)
                  else Int.ofNat (digitsToNat (d :: ds) 0)), rest)

/-- Parse of a JSON number: an optional minus sign then the integer body. -/
def parseNumber : List Char → Option (JVal × List Char)
  | c :: cs => if c = '-' then parseNumAbs true cs else parseNumAbs false (c :: cs)
  | [] => parseNumAbs false []

/-- Python `dict` construction step: assigning to an existing key replaces
its value in place, a fresh key appends at the end. -/
def objInsert (fs : JObj) (k : String) (v : JVal) : JObj :=
  if fs.any (fun kv => kv.1 == k) then
    fs.map (fun kv => if kv.1 == k then (kv.1, v) else kv)
  else fs ++ [(k, v)]

mutual
/-- Fuel-indexed parse of one JSON value from the front of the text,
following the `json.loads` grammar (with the integer-number restriction
noted at `parseNumber`).  Returns the value and the unconsumed rest.  The
fuel only bounds recursion depth; `2 * length + 2` always suffices because
every recursive call consumes input. -/
def parseVal : Nat → List Char → Option (JVal × List Char)
  | 0, _ => none
  | fuel + 1, l =>
    match l.dropWhile jsonWsChar with
    | [] => none
    | c :: cs =>
      if c = lbrace then
        match cs.dropWhile jsonWsChar with
        | c2 :: cs2 =>
          if c2 = rbrace then some (.obj [], cs2)
          else parseFields fuel (c2 :: cs2) []
        | [] => none
      else if c = '[' then
        match cs.dropWhile jsonWsChar with
        | c2 :: cs2 =>
          if c2 = ']' then some (.arr [], cs2)
          else parseItems fuel (c2 :: cs2) []
        | [] => none
      else if c = '"' then
        match parseStringBody (cs.length + 1) cs with
        | some (sd, rest) => some (.str (String.mk sd), rest)
        | none => none
      else if c = 't' then
        if cs.take 3 = ['r', 'u', 'e'] then some (.bool true, cs.drop 3) else none
      else if c = 'f' then
        if cs.take 4 = ['a', 'l', 's', 'e'] then some (.bool false, cs.drop 4) else none
      else if c = 'n' then
        if cs.take 3 = ['u', 'l', 'l'] then some (.null, cs.drop 3) else none
      else parseNumber (c :: cs)

/-- Parse of the members of a non-empty object, accumulating bindings with
Python's `dict` insertion semantics, up to and past the closing brace. -/
def parseFields : Nat → List Char → JObj → Option (JVal × List Char)
  | 0, _, _ => none
  | fuel + 1, l, acc =>
    match l.dropWhile jsonWsChar with
    | c :: cs =>
      if c = '"' then
        match parseStringBody (cs.length + 1) cs with
        | some (kd, r1) =>
          match r1.dropWhile jsonWsChar with
          | c2 :: r2 =>
            if c2 = ':' then
              match parseVal fuel r2 with
              | some (v, r3) =>
                let acc2 := objInsert acc (String.mk kd) v
                match r3.dropWhile jsonWsChar with
                | c4 :: r4 =>
                  if c4 = ',' then parseFields fuel r4 acc2
                  else if c4 = rbrace then some (.obj acc2, r4)
                  else none
                | [] => none
              | none => none
            else none
          | [] => none
        | none => none
      else none
    | [] => none

/-- Parse of the items of a non-empty array, up to and past the closing
bracket. -/
def parseItems : Nat → List Char → List JVal → Option (JVal × List Char)
  | 0, _, _ => none
  | fuel + 1, l, acc =>
    match parseVal fuel l with
    | some (v, r1) =>
      match r1.dropWhile jsonWsChar with
      | c :: r2 =>
        if c = ',' then parseItems fuel r2 (acc ++ [v])
        else if c = ']' then some (.arr (acc ++ [v]), r2)
        else none
      | [] => none
    | none => none
end

/-- The `json.loads` model: parse one value and require only whitespace to
remain. -/
def loads (l : List Char) : Option JVal :=
  match parseVal (2 * l.length + 2) l with
  | some (v, rest) => if (rest.dropWhile jsonWsChar).isEmpty then some v else none
  | none => none

/-- The fence tag `_extract_json_dict` rewrites. -/
def fencePat : List Char := "```json".data

/-- The bare fence the tag is rewritten to. -/
def fenceRep : List Char := "```".data

/-- Fuel-indexed Python `str.replace`: leftmost non-overlapping occurrences,
scanning left to right and never rescanning a replacement. -/
def replaceGo (pat rep : List Char) : Nat → List Char → List Char
  | 0, l => l
  | _ + 1, [] => []
  | fuel + 1, c :: cs =>
    if pat.isPrefixOf (c :: cs) then rep ++ replaceGo pat rep fuel ((c :: cs).drop pat.length)
    else c :: replaceGo pat rep fuel cs

/-- Python `str.replace` on character lists (for a non-empty pattern). -/
def replaceList (pat rep l : List Char) : List Char := replaceGo pat rep l.length l

/-- The cleaned text `_extract_json_dict` works on: strip, rewrite the
`json`-tagged fence to a bare fence, and if the result starts with a fence,
strip all leading and trailing backticks and strip again. -/
def cleanedText (text : String) : List Char :=
  let cleaned := replaceList fencePat fenceRep (stripList text.data)
  if fenceRep.isPrefixOf cleaned then
    stripList (trimRightBy (fun c => c == btick) (trimLeftBy (fun c => c == btick) cleaned))
  else cleaned

/-- The `ValueError` message raised when no candidate parses, carrying the
original (uncleaned) input text. -/
def parseErrorMsg (text : String) : String :=
  "Could not parse JSON object from model output: " ++ text

/-- Indices of every opening brace in the cleaned text, in order: the
successive values of `cleaned.find(n)` in the source's outer loop. -/
def bracePosGo : List Char → Nat → List Nat
  | [], _ => []
  | c :: cs, i =>
    if c = lbrace then i :: bracePosGo cs (i + 1) else bracePosGo cs (i + 1)

/-- All candidate start positions of the scan. -/
def bracePositions (l : List Char) : List Nat := bracePosGo l 0

/-- The source's inner scan from one candidate start: walk `rem` tracking
brace nesting depth (an integer; the depth check fires only on a closing
brace).  When the depth returns to zero, the candidate, the prefix of `s` of
length `n + 1`, is parsed: a mapping is returned, a parse failure breaks to
the next start (`none`), and any other parse keeps scanning, exactly as the
source's loop does. -/
def innerScanGo (s : List Char) : List Char → Int → Nat → Option JObj
  | [], _, _ => none
  | c :: rest, depth, n =>
    if c = lbrace then innerScanGo s rest (depth + 1) (n + 1)
    else if c = rbrace then
      let d := depth - 1
      if d = 0 then
        match loads (s.take (n + 1)) with
        | some (.obj fs) => some fs
        | some _ => innerScanGo s rest d (n + 1)
        | none => none
      else innerScanGo s rest d (n + 1)
    else innerScanGo s rest depth (n + 1)

/-- The outer loop of the scan: try each opening-brace position in order;
when every start is exhausted, fail with the diagnostic message. -/
def extractScan (cleaned : List Char) (text : String) : List Nat → Except String JObj
  | [] => .error (parseErrorMsg text)
  | p :: ps =>
    match innerScanGo (cleaned.drop p) (cleaned.drop p) 0 0 with
    | some fs => .ok fs
    | none => extractScan cleaned text ps

/-- The `_extract_json_dict` model: clean the text, attempt a direct parse
(returning it only when it is a mapping), then scan brace-delimited
candidates leftmost-first. -/
def extractJsonDict (text : String) : Except String JObj :=
  let cleaned := cleanedText text
  match loads cleaned with
  | some (.obj fs) => .ok fs
  | _ => extractScan cleaned text (bracePositions cleaned)

/-- The loaded model configuration fields the chat call reads.  The remaining
fields (endpoint, timeout, temperature, headers) are consumed by the
transport, which is abstracted into `HttpOutcome` below. -/
structure ModelAPIConfig where
  provider : String
  model : String
  apiKey : String
deriving DecidableEq, Repr

/-- Outcome of the blocking `urlopen` round trip, abstracting the raw HTTP
transport: a decoded response body, an `HTTPError` with status code and read
body, or a `URLError` (connection failure or timeout) with its message. -/
inductive HttpOutcome where
  | success (body : String)
  | httpError (code : Nat) (detail : String)
  | urlError (msg : String)
deriving DecidableEq, Repr

/-- The Python exception kinds the response-unpacking expression
`data["choices"][0]["message"]["content"].strip()` can raise. -/
inductive PyError where
  | keyError (k : String)
  | indexError
  | typeError (msg : String)
  | jsonDecodeError
  | attributeError (msg : String)
deriving DecidableEq, Repr

/-- How a chat call fails: the `AgentAPIError` the client raises itself, or a
Python exception escaping uncaught. -/
inductive ChatFailure where
  | apiError (msg : String)
  | uncaught (e : PyError)
deriving DecidableEq, Repr

/-- Whether a chat failure is the client's single `AgentAPIError` kind. -/
def ChatFailure.isApiError : ChatFailure → Bool
  | .apiError _ => true
  | .uncaught _ => false

/-- Python subscript `v[k]` with a string key: field of a mapping (`KeyError`
when absent), `TypeError` on every other value. -/
def pySubscriptStr (v : JVal) (k : String) : Except PyError JVal :=
  match v with
  | .obj fs =>
    match fs.lookup k with
    | some w => .ok w
    | none => .error (.keyError k)
  | .arr _ => .error (.typeError "list indices must be integers or slices, not str")
  | .str _ => .error (.typeError "string indices must be integers")
  | _ => .error (.typeError "object is not subscriptable")

/-- Python subscript `v[i]` with an integer index: list and string indexing
(`IndexError` out of range), `KeyError` on a mapping, `TypeError` otherwise. -/
def pySubscriptNat (v : JVal) (i : Nat) : Except PyError JVal :=
  match v with
  | .arr xs =>
    match xs.get? i with
    | some w => .ok w
    | none => .error .indexError
  | .str s =>
    match s.data.get? i with
    | some c => .ok (.str (String.mk [c]))
    | none => .error .indexError
  | .obj _ => .error (.keyError (String.mk (natChars i)))
  | _ => .error (.typeError "object is not subscriptable")

/-- The unpacking `json.loads(raw)["choices"][0]["message"]["content"].strip()`
of the chat response.  The final `.strip()` is a string method: calling it on
a non-string value raises `AttributeError`. -/
def chatExtractContent (raw : String) : Except PyError String :=
  match loads raw.data with
  | none => .error .jsonDecodeError
  | some data => do
    let choices ← pySubscriptStr data "choices"
    let first ← pySubscriptNat choices 0
    let message ← pySubscriptStr first "message"
    let content ← pySubscriptStr message "content"
    match content with
    | .str s => .ok (pyStrip s)
    | _ => .error (.attributeError "object has no attribute strip")

/-- The `OpenAICompatClient.chat` call over an abstracted transport outcome:
an empty credential fails before the request; `HTTPError` and `URLError`
become `AgentAPIError` messages (the former carrying the status code and the
response body); on success the response is unpacked, `KeyError`,
`IndexError`, `TypeError` and `JSONDecodeError` becoming the `AgentAPIError`
format message that carries the raw body, while an `AttributeError` from
`.strip()` on a non-string `content` escapes uncaught. -/
def chat (cfg : ModelAPIConfig) (outcome : HttpOutcome) : Except ChatFailure String :=
  if cfg.apiKey = "" then .error (.apiError "API key is empty in loaded model config.")
  else
    match outcome with
    | .httpError code detail =>
      .error (.apiError
        (cfg.provider ++ " request failed with HTTP " ++ String.mk (natChars code)
          ++ ": " ++ detail))
    | .urlError msg =>
      .error (.apiError (cfg.provider ++ " request failed: " ++ msg))
    | .success raw =>
      match chatExtractContent raw with
      | .ok content => .ok content
      | .error (.attributeError m) => .error (.uncaught (.attributeError m))
      | .error _ =>
        .error (.apiError (cfg.provider ++ " response is not in expected format: " ++ raw))

/-- How one pipeline stage fails: the client's `AgentAPIError`, or the
extractor's `ValueError`. -/
inductive PipeErr where
  | apiErr (msg : String)
  | parseErr (msg : String)
deriving DecidableEq, Repr

/-- One pipeline stage against a scripted (mocked) chat client: the chat call
consumes the next scripted response (a completion text or a client error) and
the extractor parses the completion.  The stage prompts, rendered from the
literal templates the specification scopes out as external collaborators,
determine only the text sent to the client and so are absorbed into the
script; call `k` is stage `k`'s, as `analyze` issues exactly one call per
stage. -/
def runStage (responses : List (Except String String)) (calls : Nat) :
    Except PipeErr JObj × Nat :=
  match responses.getD calls (.error "no scripted response") with
  | .error e => (.error (.apiErr e), calls + 1)
  | .ok raw =>
    match extractJsonDict raw with
    | .ok fs => (.ok fs, calls + 1)
    | .error m => (.error (.parseErr m), calls + 1)

/-- The `ParadoxDetector.analyze` orchestration against the scripted client:
the four stages run strictly in sequence, each feeding the next, a failing
stage short-circuiting the whole pipeline; on success the report is built
from the statement and the four stage results.  The second component counts
the chat calls that were issued. -/
def analyzeMock (responses : List (Except String String)) (userInput : String) :
    Except PipeErr Report × Nat :=
  match runStage responses 0 with
  | (.error e, c) => (.error e, c)
  | (.ok s1, c1) =>
    match runStage responses c1 with
    | (.error e, c) => (.error e, c)
    | (.ok p1, c2) =>
      match runStage responses c2 with
      | (.error e, c) => (.error e, c)
      | (.ok p2, c3) =>
        match runStage responses c3 with
        | (.error e, c) => (.error e, c)
        | (.ok p3, c4) => (.ok (buildReport userInput s1 p1 p2 p3), c4)

/-- The stage result the script yields at call `k`, viewed on its own. -/
def stageResult (responses : List (Except String String)) (k : Nat) : Except PipeErr JObj :=
  (runStage responses k).1

mutual
/-- Whether a value is in mapping-canonical form: no object anywhere carries
a duplicate key.  Values produced by the parser always are; the association
lists of the embedding can express non-mappings, which this rules out. -/
def canonicalV : JVal → Bool
  | .null => true
  | .bool _ => true
  | .num _ => true
  | .str _ => true
  | .arr xs => canonicalList xs
  | .obj fs => canonicalFields fs

/-- Canonicity over array elements. -/
def canonicalList : List JVal → Bool
  | [] => true
  | x :: xs => canonicalV x && canonicalList xs

/-- Canonicity over object fields: the head key is fresh in the tail and
every value is canonical. -/
def canonicalFields : List (String × JVal) → Bool
  | [] => true
  | (k, v) :: fs =>
    fs.all (fun kv => !(kv.1 == k)) && canonicalV v && canonicalFields fs
end

mutual
/-- Whether no string or key anywhere in a value contains a brace character.
For such values the braces of the serialization are exactly the structural
object delimiters, which is what the extractor's depth scan counts. -/
def braceCleanV : JVal → Bool
  | .null => true
  | .bool _ => true
  | .num _ => true
  | .str s => s.data.all (fun c => !(c == lbrace) && !(c == rbrace))
  | .arr xs => braceCleanList xs
  | .obj fs => braceCleanFields fs

/-- Brace-cleanliness over array elements. -/
def braceCleanList : List JVal → Bool
  | [] => true
  | x :: xs => braceCleanV x && braceCleanList xs

/-- Brace-cleanliness over object fields. -/
def braceCleanFields : List (String × JVal) → Bool
  | [] => true
  | (k, v) :: fs =>
    k.data.all (fun c => !(c == lbrace) && !(c == rbrace)) && braceCleanV v
      && braceCleanFields fs
end

/-- Net brace count of a character list: opening braces minus closing
braces, the quantity the extractor's depth scan accumulates. -/
def netBraces : List Char → Int
  | [] => 0
  | c :: cs => (if c = lbrace then 1 else if c = rbrace then -1 else 0) + netBraces cs

/-- The serialization of a non-empty object between its braces. -/
def membersSer : JObj → List Char
  | [] => []
  | (k, v) :: fs =>
    '"' :: escapeList k.data ++ ['"', ':', ' '] ++ dumpsV v ++ dumpsFields fs

/-- The serialization of a non-empty array between its brackets. -/
def itemsSer : List JVal → List Char
  | [] => []
  | x :: xs => dumpsV x ++ dumpsItems xs

/-- The tail condition under which a serialized value parses back exactly:
after a number the text must not continue with a digit, a decimal point or
an exponent tag (numbers parse by maximal munch); every other value is
self-delimiting. -/
def numSafe : JVal → List Char → Prop
  | .num _, c :: _ => c.isDigit = false ∧ c ≠ '.' ∧ c ≠ 'e' ∧ c ≠ 'E'
  | _, _ => True


/-- Whether a character list contains no brace at all. -/
def noBracesB (l : List Char) : Bool :=
  l.all (fun c => !(c == lbrace) && !(c == rbrace))

/-- A balanced segment for the extractor's depth scan: zero net braces, and
no prefix with negative net braces. -/
def Seg (l : List Char) : Prop :=
  netBraces l = 0 ∧ ∀ q, List.IsPrefix q l → 0 ≤ netBraces q

/-! Theorems. -/

/-- C8: the field normalizers satisfy their defining equations: a list input
keeps the trimmed stringification of each element in original order, dropping
those that trim to empty; `null` and values trimming to empty give the empty
list, other scalars a singleton; and `textOrNA` gives the trimmed text or the
literal `"N/A"` sentinel, with the spec's concrete instances holding. -/
theorem normalizers_defining_equations :
    (∀ xs : List JVal,
      asStringList (.arr xs) = (xs.map pyStrTrim).filter (fun s => !(s == ""))) ∧
    asStringList .null = [] ∧
    (∀ v : JVal, (∀ xs, v ≠ .arr xs) → v ≠ .null →
      asStringList v = if pyStrTrim v = "" then [] else [pyStrTrim v]) ∧
    asStringList (.str "  ") = [] ∧
    asStringList (.arr [.str "a", .str " ", .str "b"]) = ["a", "b"] ∧
    (∀ v : JVal, textOrNA v = if pyStrTrim v = "" then "N/A" else pyStrTrim v) ∧
    textOrNA (.str "") = "N/A" ∧
    textOrNA (.str " x ") = "x" := by
  refine ⟨fun xs => rfl, rfl, fun v harr hnull => ?_, by decide, by decide,
    fun v => rfl, by decide, by decide⟩
  cases v with
  | null => exact absurd rfl hnull
  | arr xs => exact absurd rfl (harr xs)
  | bool b => rfl
  | num n => rfl
  | str s => rfl
  | obj fs => rfl

/-- C8 witness: the scalar equation applied at the concrete input `5`. -/
theorem normalizers_defining_equations_witness :
    asStringList (.num 5) =
      if pyStrTrim (.num 5) = "" then [] else [pyStrTrim (.num 5)] :=
  normalizers_defining_equations.2.2.1 (.num 5)
    (fun _ h => JVal.noConfusion h) (fun h => JVal.noConfusion h)

/-- C9: the core-variables normalizer prefers the normalized flat
`core_variables` list when non-empty, and otherwise flattens the values of a
legacy `variables` mapping in iteration order into one normalized list. -/
theorem core_vars_normalizer_spec (p1 : JObj) :
    (asStringList (pyGet p1 "core_variables") ≠ [] →
      phase1ToCoreVars p1 = asStringList (pyGet p1 "core_variables")) ∧
    (asStringList (pyGet p1 "core_variables") = [] →
      ∀ legacy, pyGet p1 "variables" = .obj legacy →
        phase1ToCoreVars p1 = (legacy.map (fun kv => asStringList kv.2)).flatten) := by
  constructor
  · intro hne
    unfold phase1ToCoreVars
    rw [if_neg (by simpa [List.isEmpty_iff] using hne)]
  · intro hemp legacy hleg
    unfold phase1ToCoreVars
    rw [if_pos (by simpa [List.isEmpty_iff] using hemp), hleg]

/-- C9 witness: the legacy-flattening branch at a concrete Phase 1 result. -/
theorem core_vars_normalizer_spec_witness :
    phase1ToCoreVars
        [("variables", .obj [("econ", .arr [.str "jobs", .str " "]),
                             ("tech", .arr [.str "automation"])])] =
      (([("econ", JVal.arr [.str "jobs", .str " "]),
         ("tech", JVal.arr [.str "automation"])] : JObj).map
          (fun kv => asStringList kv.2)).flatten :=
  (core_vars_normalizer_spec _).2 (by decide)
    [("econ", JVal.arr [.str "jobs", .str " "]),
     ("tech", JVal.arr [.str "automation"])] (by decide)

/-- C10: the diagnosis type of every built report is never the empty string:
an absent `paradox_type` key yields the literal `"None"`, a present value
whose string form trims to empty also yields `"None"`, and any other value
yields its trimmed string form. -/
theorem paradox_type_never_empty (u : String) (s1 p1 p2 p3 : JObj) :
    (buildReport u s1 p1 p2 p3).paradoxDiagnosis.type ≠ "" ∧
    (p3.lookup "paradox_type" = none →
      (buildReport u s1 p1 p2 p3).paradoxDiagnosis.type = "None") ∧
    (∀ v, p3.lookup "paradox_type" = some v → pyStrTrim v = "" →
      (buildReport u s1 p1 p2 p3).paradoxDiagnosis.type = "None") ∧
    (∀ v, p3.lookup "paradox_type" = some v → pyStrTrim v ≠ "" →
      (buildReport u s1 p1 p2 p3).paradoxDiagnosis.type = pyStrTrim v) := by
  refine ⟨?_, ?_, ?_, ?_⟩
  · show (let t := pyStrTrim (pyGetD p3 "paradox_type" (.str "None"))
          if t = "" then "None" else t) ≠ ""
    by_cases h : pyStrTrim (pyGetD p3 "paradox_type" (.str "None")) = ""
    · simp only [h, if_pos rfl]
      decide
    · simp [h]
  · intro hnone
    show (let t := pyStrTrim (pyGetD p3 "paradox_type" (.str "None"))
          if t = "" then "None" else t) = "None"
    simp only [pyGetD, hnone]
    decide
  · intro v hv hemp
    show (let t := pyStrTrim (pyGetD p3 "paradox_type" (.str "None"))
          if t = "" then "None" else t) = "None"
    simp only [pyGetD, hv, hemp]
    decide
  · intro v hv hne
    show (let t := pyStrTrim (pyGetD p3 "paradox_type" (.str "None"))
          if t = "" then "None" else t) = pyStrTrim v
    simp only [pyGetD, hv]
    simp [hne]

/-- C10 witness: a whitespace-only `paradox_type` yields `"None"` at a
concrete Phase 3 result. -/
theorem paradox_type_never_empty_witness :
    (buildReport "" [] [] [] [("paradox_type", .str "  ")]).paradoxDiagnosis.type
      = "None" :=
  (paradox_type_never_empty "" [] [] [] [("paradox_type", .str "  ")]).2.2.1
    (.str "  ") (by decide) (by decide)

/-- C6 counterexample: a valid JSON response whose `choices[0].message.content`
path exists but holds a number makes `.strip()` raise an `AttributeError`,
which the `except` clause does not catch — an error kind other than
`AgentAPIError` escapes the call, contradicting the claim. -/
theorem chat_taxonomy_counterexample :
    chat ⟨"deepseek", "m", "k"⟩
        (.success "\x7b\"choices\": [\x7b\"message\": \x7b\"content\": 123\x7d\x7d]\x7d")
      = .error (.uncaught (.attributeError "object has no attribute strip")) ∧
    (ChatFailure.uncaught (.attributeError "object has no attribute strip")).isApiError
      = false := by
  constructor
  · rfl
  · rfl

/-- C6 (amended): the empty credential, the HTTP error (whose message carries
the status code and the response body), the connection failure, the
non-JSON body and the missing `choices[0].message.content` path all surface
as the single `AgentAPIError` kind with the documented messages; the one
exception the claim missed is a present but non-string `content`, whose
`AttributeError` from `.strip()` escapes uncaught — and that is the only
non-`AgentAPIError` escape. -/
theorem chat_error_taxonomy (cfg : ModelAPIConfig) (outcome : HttpOutcome) :
    (cfg.apiKey = "" →
      chat cfg outcome = .error (.apiError "API key is empty in loaded model config.")) ∧
    (cfg.apiKey ≠ "" → ∀ code detail, outcome = .httpError code detail →
      chat cfg outcome = .error (.apiError
        (cfg.provider ++ " request failed with HTTP " ++ String.mk (natChars code)
          ++ ": " ++ detail))) ∧
    (cfg.apiKey ≠ "" → ∀ msg, outcome = .urlError msg →
      chat cfg outcome = .error (.apiError (cfg.provider ++ " request failed: " ++ msg))) ∧
    (cfg.apiKey ≠ "" → ∀ raw, outcome = .success raw → ∀ s,
      chatExtractContent raw = .ok s → chat cfg outcome = .ok s) ∧
    (cfg.apiKey ≠ "" → ∀ raw, outcome = .success raw → ∀ e,
      chatExtractContent raw = .error e → (∀ m, e ≠ .attributeError m) →
      chat cfg outcome = .error (.apiError
        (cfg.provider ++ " response is not in expected format: " ++ raw))) ∧
    (∀ e, chat cfg outcome = .error e → e.isApiError = false →
      ∃ m, e = .uncaught (.attributeError m)) := by
  refine ⟨?_, ?_, ?_, ?_, ?_, ?_⟩
  · intro hk
    unfold chat
    rw [if_pos hk]
  · intro hk code detail hout
    unfold chat
    rw [if_neg hk, hout]
  · intro hk msg hout
    unfold chat
    rw [if_neg hk, hout]
  · intro hk raw hout s hex
    subst hout
    simp only [chat, if_neg hk, hex]
  · intro hk raw hout e hex hne
    subst hout
    cases e with
    | keyError k => simp only [chat, if_neg hk, hex]
    | indexError => simp only [chat, if_neg hk, hex]
    | typeError m => simp only [chat, if_neg hk, hex]
    | jsonDecodeError => simp only [chat, if_neg hk, hex]
    | attributeError m => exact absurd rfl (hne m)
  · intro e hchat hapi
    unfold chat at hchat
    by_cases hk : cfg.apiKey = ""
    · rw [if_pos hk] at hchat
      cases hchat
      simp [ChatFailure.isApiError] at hapi
    · rw [if_neg hk] at hchat
      cases outcome with
      | httpError code detail =>
        cases hchat
        simp [ChatFailure.isApiError] at hapi
      | urlError msg =>
        cases hchat
        simp [ChatFailure.isApiError] at hapi
      | success raw =>
        cases hex : chatExtractContent raw with
        | ok s => simp only [hex] at hchat; cases hchat
        | error pe =>
          simp only [hex] at hchat
          cases pe with
          | keyError k => cases hchat; simp [ChatFailure.isApiError] at hapi
          | indexError => cases hchat; simp [ChatFailure.isApiError] at hapi
          | typeError m => cases hchat; simp [ChatFailure.isApiError] at hapi
          | jsonDecodeError => cases hchat; simp [ChatFailure.isApiError] at hapi
          | attributeError m => cases hchat; exact ⟨m, rfl⟩

/-- C6 witness: the HTTP-error equation applied at a concrete outcome: the
message carries the status code and the response body. -/
theorem chat_error_taxonomy_witness :
    chat ⟨"deepseek", "m", "k"⟩ (.httpError 404 "not found")
      = .error (.apiError ("deepseek" ++ " request failed with HTTP "
          ++ String.mk (natChars 404) ++ ": " ++ "not found")) :=
  (chat_error_taxonomy ⟨"deepseek", "m", "k"⟩ (.httpError 404 "not found")).2.1
    (by decide) 404 "not found" rfl

/-- C5: a chat-client failure or extractor failure at any stage aborts the
pipeline immediately — the stages before it all succeeded, the error value
propagates unchanged, exactly `k + 1` chat calls were issued (so no later
stage is attempted) and no report is produced; and a report is produced only
when all four stages succeeded, built from exactly their results after four
calls. -/
theorem pipeline_abort_policy (rs : List (Except String String)) (u : String) :
    (∀ k e, k ≤ 3 → (∀ j, j < k → ∃ fs, stageResult rs j = .ok fs) →
      stageResult rs k = .error e →
      analyzeMock rs u = (.error e, k + 1)) ∧
    (∀ r n, analyzeMock rs u = (.ok r, n) →
      n = 4 ∧ ∃ s1 p1 p2 p3,
        stageResult rs 0 = .ok s1 ∧ stageResult rs 1 = .ok p1 ∧
        stageResult rs 2 = .ok p2 ∧ stageResult rs 3 = .ok p3 ∧
        r = buildReport u s1 p1 p2 p3) := by
  have hsnd : ∀ k, (runStage rs k).2 = k + 1 := by
    intro k
    unfold runStage
    cases rs.getD k (.error "no scripted response") with
    | error e => rfl
    | ok raw =>
      dsimp only
      cases extractJsonDict raw with
      | ok fs => rfl
      | error m => rfl
  have hrun : ∀ k, runStage rs k = (stageResult rs k, k + 1) := by
    intro k
    rw [← hsnd k]
    rfl
  constructor
  · intro k e hk hprev herr
    interval_cases k
    · simp [analyzeMock, hrun, herr]
    · obtain ⟨s1, h0⟩ := hprev 0 (by omega)
      simp [analyzeMock, hrun, h0, herr]
    · obtain ⟨s1, h0⟩ := hprev 0 (by omega)
      obtain ⟨p1, h1⟩ := hprev 1 (by omega)
      simp [analyzeMock, hrun, h0, h1, herr]
    · obtain ⟨s1, h0⟩ := hprev 0 (by omega)
      obtain ⟨p1, h1⟩ := hprev 1 (by omega)
      obtain ⟨p2, h2⟩ := hprev 2 (by omega)
      simp [analyzeMock, hrun, h0, h1, h2, herr]
  · intro r n hok
    simp only [analyzeMock, hrun] at hok
    cases h0 : stageResult rs 0 with
    | error e => simp only [h0] at hok; simp at hok
    | ok s1 =>
      simp only [h0, Nat.reduceAdd] at hok
      cases h1 : stageResult rs 1 with
      | error e => simp only [h1] at hok; simp at hok
      | ok p1 =>
        simp only [h1, Nat.reduceAdd] at hok
        cases h2 : stageResult rs 2 with
        | error e => simp only [h2] at hok; simp at hok
        | ok p2 =>
          simp only [h2, Nat.reduceAdd] at hok
          cases h3 : stageResult rs 3 with
          | error e => simp only [h3] at hok; simp at hok
          | ok p3 =>
            simp only [h3, Prod.mk.injEq, Except.ok.injEq] at hok
            obtain ⟨hr, hn⟩ := hok
            exact ⟨hn.symm, s1, p1, p2, p3, rfl, rfl, rfl, rfl, hr.symm⟩

/-- One SHA-256 round preserves the length of the working state. -/
theorem shaRound_length (st : List Nat) (kw : Nat) :
    (shaRound st kw).length = st.length := by
  unfold shaRound
  split
  · rfl
  · rfl

/-- Folding rounds preserves the length of the working state. -/
theorem foldl_shaRound_length (kws : List Nat) :
    ∀ st : List Nat, (kws.foldl shaRound st).length = st.length := by
  induction kws with
  | nil => intro st; rfl
  | cons kw kws ih =>
    intro st
    rw [List.foldl_cons, ih, shaRound_length]

/-- Block compression preserves the length of the hash state. -/
theorem compressBlock_length (h b : List Nat) :
    (compressBlock h b).length = h.length := by
  unfold compressBlock
  rw [List.length_zipWith, foldl_shaRound_length]
  exact Nat.min_self _

/-- Processing any word stream preserves the length of the hash state. -/
theorem processBlocks_length (ws h : List Nat) :
    (processBlocks ws h).length = h.length := by
  induction ws, h using processBlocks.induct with
  | case1 w0 w1 w2 w3 w4 w5 w6 w7 w8 w9 w10 w11 w12 w13 w14 w15 rest h ih =>
    rw [processBlocks, ih, compressBlock_length]
  | case2 t h hm =>
    unfold processBlocks
    split
    · rename_i w0 w1 w2 w3 w4 w5 w6 w7 w8 w9 w10 w11 w12 w13 w14 w15 rest
      exact absurd rfl (hm w0 w1 w2 w3 w4 w5 w6 w7 w8 w9 w10 w11 w12 w13 w14 w15 rest)
    · rfl

/-- Rendering words in hex yields eight characters per word. -/
theorem wordsHex_length (ws : List Nat) : (wordsHex ws).length = 8 * ws.length := by
  induction ws with
  | nil => rfl
  | cons w ws ih =>
    show (wordHex w ++ wordsHex ws).length = _
    rw [List.length_append, ih]
    show 8 + 8 * ws.length = 8 * (ws.length + 1)
    ring

/-- The hex digit of a value below sixteen is a lowercase hex character. -/
theorem hexDigitChar_mem (d : Nat) (hd : d < 16) :
    hexDigitChar d ∈ "0123456789abcdef".data := by
  interval_cases d <;> decide

/-- Every character of a word's hex rendering is a hex character. -/
theorem wordHex_mem (w : Nat) (c : Char) (hc : c ∈ wordHex w) :
    c ∈ "0123456789abcdef".data := by
  simp only [wordHex, List.mem_cons, List.not_mem_nil, or_false] at hc
  rcases hc with h | h | h | h | h | h | h | h <;>
    exact h ▸ hexDigitChar_mem _ (Nat.mod_lt _ (by norm_num))

/-- Every character of the hex rendering of a word list is a hex character. -/
theorem wordsHex_mem (ws : List Nat) (c : Char) (hc : c ∈ wordsHex ws) :
    c ∈ "0123456789abcdef".data := by
  induction ws with
  | nil => cases hc
  | cons w ws ih =>
    rcases List.mem_append.1 hc with h | h
    · exact wordHex_mem w c h
    · exact ih h

/-- The SHA-256 hex digest has 64 characters, all lowercase hex. -/
theorem sha256Hex_shape (msg : List Nat) :
    (sha256Hex msg).data.length = 64 ∧
    ∀ c ∈ (sha256Hex msg).data, c ∈ "0123456789abcdef".data := by
  constructor
  · show (wordsHex (processBlocks (toWords (sha256Pad msg)) shaH0)).length = 64
    rw [wordsHex_length, processBlocks_length]
    rfl
  · intro c hc
    exact wordsHex_mem _ c hc

/-- C1 counterexample: two Phase 3 stage outputs differing in one string
value yield the same report identifier — truncating the digest to 12 hex
characters (48 bits) admits collisions, so changing a single stage output
need not change `report_id`. -/
theorem report_id_collision :
    ([("x", JVal.str "a2f430949682")] : JObj) ≠ [("x", JVal.str "0fb54d390de6")] ∧
    (buildReport "" [] [] [] [("x", .str "a2f430949682")]).reportId
      = (buildReport "" [] [] [] [("x", .str "0fb54d390de6")]).reportId := by
  exact ⟨by decide, by decide⟩

/-- C1 (amended): the report identifier is exactly the first 12 hexadecimal
characters of the SHA-256 digest of the canonical sorted-key serialization of
the statement and the four raw stage results — a deterministic function of
exactly those five inputs, so identical inputs give an identical
`report_id`; but a change to a single stage output can leave the truncated
identifier unchanged (see the recorded collision). -/
theorem report_id_spec (u : String) (s1 p1 p2 p3 : JObj) :
    (buildReport u s1 p1 p2 p3).reportId
      = String.mk ((sha256Hex (utf8List (digestSrc u s1 p1 p2 p3))).data.take 12) ∧
    (buildReport u s1 p1 p2 p3).reportId.length = 12 ∧
    (∀ c ∈ (buildReport u s1 p1 p2 p3).reportId.data, c ∈ "0123456789abcdef".data) ∧
    (∀ u2 s12 p12 p22 p32, u = u2 → s1 = s12 → p1 = p12 → p2 = p22 → p3 = p32 →
      (buildReport u s1 p1 p2 p3).reportId
        = (buildReport u2 s12 p12 p22 p32).reportId) := by
  refine ⟨rfl, ?_, ?_, ?_⟩
  · show ((sha256Hex (utf8List (digestSrc u s1 p1 p2 p3))).data.take 12).length = 12
    rw [List.length_take, (sha256Hex_shape _).1]
    decide
  · intro c hc
    exact (sha256Hex_shape _).2 c (List.take_subset _ _ hc)
  · intro u2 s12 p12 p22 p32 h1 h2 h3 h4 h5
    rw [h1, h2, h3, h4, h5]

/-- C1 witness: the determinism conjunct applied at concrete equal inputs. -/
theorem report_id_spec_witness :
    (buildReport "s" [] [] [] []).reportId = (buildReport "s" [] [] [] []).reportId :=
  (report_id_spec "s" [] [] [] []).2.2.2 "s" [] [] [] [] rfl rfl rfl rfl rfl

/-- Indented item lines: one line per item, or the single placeholder. -/
theorem itemLines_length (l : List String) : (itemLines l).length = max 1 l.length := by
  cases l with
  | nil => rfl
  | cons x xs => simp [itemLines]

/-- Branch rendering yields three lines per branch record. -/
theorem branchLines_length (bs : List BranchRecord) :
    ∀ i, (branchLines i bs).length = 3 * bs.length := by
  induction bs with
  | nil => intro i; rfl
  | cons b bs ih =>
    intro i
    show (branchLines i (b :: bs)).length = _
    rw [branchLines, List.length_cons, List.length_cons, List.length_cons, ih,
      List.length_cons]
    ring

/-- C7 counterexample: a report whose `primary_goal` is the empty string
renders the bare line `"- Primary Goal: "` — the formatter does not
substitute the `"N/A"` placeholder for this empty string field, contradicting
the claim that every empty string field receives the placeholder. -/
theorem format_na_counterexample :
    (Report.mk "rid" ⟨"", [], [], [], [], [], []⟩ [] ⟨"None", "", []⟩ []
        ⟨[], [], [], []⟩).logicalBreakdown.primaryGoal = "" ∧
    "- Primary Goal: " ∈ formatLines
      (Report.mk "rid" ⟨"", [], [], [], [], [], []⟩ [] ⟨"None", "", []⟩ []
        ⟨[], [], [], []⟩) ∧
    "- Primary Goal: N/A" ∉ formatLines
      (Report.mk "rid" ⟨"", [], [], [], [], [], []⟩ [] ⟨"None", "", []⟩ []
        ⟨[], [], [], []⟩) := by
  refine ⟨rfl, ?_, ?_⟩ <;> decide

/-- C7 (amended): the formatter is a deterministic projection of the report
structure that renders the fixed four-section layout in order, with one line
per list item (the length equation), the `"N/A"` placeholder for every empty
list and for an empty reasoning field — while the primary goal (and the
builder-normalized diagnosis type and branch fields) render verbatim, with no
placeholder for an empty string. -/
theorem format_report_layout (r : Report) :
    (∃ a1 a2 a3 a4 a5 : List String,
      formatLines r = a1 ++ "1. LOGICAL BREAKDOWN" :: a2
        ++ "2. STRESS TEST RESULTS (Phase II)" :: a3
        ++ "3. PARADOX DIAGNOSIS (Phase III)" :: a4
        ++ "4. SUGGESTED MITIGATION" :: a5) ∧
    (formatLines r).length
      = 19 + max 1 r.logicalBreakdown.retrievedInternalKnowledge.length
        + max 1 r.logicalBreakdown.internalKnowledgeUsed.length
        + max 1 r.logicalBreakdown.knowledgeGaps.length
        + max 1 r.logicalBreakdown.hiddenAssumptions.length
        + max 1 r.logicalBreakdown.realityGaps.length
        + (if r.stressTestResults = [] then 1 else 3 * r.stressTestResults.length)
        + max 1 r.paradoxDiagnosis.contradictionPath.length
        + (if r.suggestedMitigation = [] then 1 else r.suggestedMitigation.length) ∧
    ("- Primary Goal: " ++ r.logicalBreakdown.primaryGoal) ∈ formatLines r ∧
    ("- Type: " ++ r.paradoxDiagnosis.type) ∈ formatLines r ∧
    (r.logicalBreakdown.coreVariables = [] → "- Core Variables: N/A" ∈ formatLines r) ∧
    (r.logicalBreakdown.retrievedInternalKnowledge = [] → "  - N/A" ∈ formatLines r) ∧
    (r.logicalBreakdown.hiddenAssumptions = [] → "  - N/A" ∈ formatLines r) ∧
    (r.paradoxDiagnosis.reasoning = "" → "- Reasoning: N/A" ∈ formatLines r) ∧
    (r.stressTestResults = [] → "- N/A" ∈ formatLines r) ∧
    (r.suggestedMitigation = [] → "- N/A" ∈ formatLines r) ∧
    (∀ it ∈ r.suggestedMitigation, ("- " ++ it) ∈ formatLines r) ∧
    (∀ it ∈ r.logicalBreakdown.hiddenAssumptions, ("  - " ++ it) ∈ formatLines r) := by
  refine ⟨?_, ?_, ?_, ?_, ?_, ?_, ?_, ?_, ?_, ?_, ?_, ?_⟩
  · refine ⟨["REPORT ID: " ++ r.reportId, ""],
      ["- Primary Goal: " ++ r.logicalBreakdown.primaryGoal,
       "- Core Variables: "
         ++ (if String.intercalate ", " r.logicalBreakdown.coreVariables = ""
             then "N/A" else String.intercalate ", " r.logicalBreakdown.coreVariables),
       "- Retrieved Internal Knowledge (S1):"]
        ++ itemLines r.logicalBreakdown.retrievedInternalKnowledge
        ++ ["- Internal Knowledge Used (Phase I):"]
        ++ itemLines r.logicalBreakdown.internalKnowledgeUsed
        ++ ["- Knowledge Gaps:"]
        ++ itemLines r.logicalBreakdown.knowledgeGaps
        ++ ["- Hidden Assumptions:"]
        ++ itemLines r.logicalBreakdown.hiddenAssumptions
        ++ ["- Reality Gaps:"]
        ++ itemLines r.logicalBreakdown.realityGaps ++ [""],
      (match r.stressTestResults with
       | [] => ["- N/A"]
       | branches => branchLines 1 branches) ++ [""],
      ["- Type: " ++ r.paradoxDiagnosis.type,
       "- Reasoning: "
         ++ (if r.paradoxDiagnosis.reasoning = "" then "N/A"
             else r.paradoxDiagnosis.reasoning),
       "- Contradiction Path:"]
        ++ itemLines r.paradoxDiagnosis.contradictionPath ++ [""],
      (match r.suggestedMitigation with
       | [] => ["- N/A"]
       | items => items.map (fun it => "- " ++ it)), ?_⟩
    simp [formatLines]
  · cases hbr : r.stressTestResults <;> cases hmit : r.suggestedMitigation <;>
      simp [formatLines, itemLines_length, branchLines_length, hbr, hmit] <;> omega
  · simp [formatLines]
  · simp [formatLines]
  · intro h
    have hint : String.intercalate ", " ([] : List String) = "" := rfl
    have happ : ("- Core Variables: " ++ "N/A" : String) = "- Core Variables: N/A" := by
      decide
    simp [formatLines, h, hint, happ]
  · intro h
    simp [formatLines, h, itemLines]
  · intro h
    simp [formatLines, h, itemLines]
  · intro h
    simp [formatLines, h]
  · intro h
    simp [formatLines, h]
  · intro h
    simp [formatLines, h]
  · intro it hit
    cases hmit : r.suggestedMitigation with
    | nil => rw [hmit] at hit; cases hit
    | cons m ms =>
      rw [hmit] at hit
      simp only [formatLines, hmit]
      exact List.mem_append.mpr (Or.inr (List.mem_map_of_mem _ hit))
  · intro it hit
    have hIL : ("  - " ++ it) ∈ itemLines r.logicalBreakdown.hiddenAssumptions := by
      cases hha : r.logicalBreakdown.hiddenAssumptions with
      | nil => rw [hha] at hit; cases hit
      | cons a as =>
        rw [hha] at hit
        exact List.mem_map_of_mem _ hit
    simp only [formatLines]
    exact List.mem_append.mpr (Or.inl (List.mem_append.mpr (Or.inl
      (List.mem_append.mpr (Or.inl (List.mem_append.mpr (Or.inl
      (List.mem_append.mpr (Or.inl (List.mem_append.mpr (Or.inl
      (List.mem_append.mpr (Or.inl (List.mem_append.mpr (Or.inl
      (List.mem_append.mpr (Or.inr hIL)))))))))))))))))

/-- C7 witness: the empty-mitigation placeholder conjunct applied at a
concrete report. -/
theorem format_report_layout_witness :
    "- N/A" ∈ formatLines
      (Report.mk "id1" ⟨"g", ["v"], [], [], [], [], []⟩ [] ⟨"None", "r", []⟩ []
        ⟨[], [], [], []⟩) :=
  (format_report_layout
    (Report.mk "id1" ⟨"g", ["v"], [], [], [], [], []⟩ [] ⟨"None", "r", []⟩ []
      ⟨[], [], [], []⟩)).2.2.2.2.2.2.2.2.2.1 rfl

/-- An unsigned number parse always yields a number value. -/
theorem parseNumAbs_shape (neg : Bool) (l : List Char) (w : JVal) (r : List Char)
    (h : parseNumAbs neg l = some (w, r)) : ∃ n, w = .num n := by
  unfold parseNumAbs at h
  split at h
  · exact absurd h (by simp)
  · split at h
    · exact absurd h (by simp)
    · split at h
      · exact absurd h (by simp)
      · exact ⟨_, (congrArg Prod.fst (Option.some.inj h)).symm⟩

/-- A number parse always yields a number value. -/
theorem parseNumber_shape (l : List Char) (w : JVal) (r : List Char)
    (h : parseNumber l = some (w, r)) : ∃ n, w = .num n := by
  unfold parseNumber at h
  split at h
  · rename_i c cs
    split at h
    · exact parseNumAbs_shape _ _ _ _ h
    · exact parseNumAbs_shape _ _ _ _ h
  · exact parseNumAbs_shape _ _ _ _ h

/-- An item-list parse always yields an array value. -/
theorem parseItems_shape (fuel : Nat) : ∀ l acc w r,
    parseItems fuel l acc = some (w, r) → ∃ xs, w = .arr xs := by
  induction fuel with
  | zero => intro l acc w r h; exact absurd h (by simp [parseItems])
  | succ fuel ih =>
    intro l acc w r h
    unfold parseItems at h
    split at h
    · split at h
      · split at h
        · exact ih _ _ _ _ h
        · split at h
          · exact ⟨_, (congrArg Prod.fst (Option.some.inj h)).symm⟩
          · exact absurd h (by simp)
      · exact absurd h (by simp)
    · exact absurd h (by simp)

/-- A parse that yields an object starts (after whitespace) with an opening
brace: every other dispatch branch of the grammar produces a different
constructor. -/
theorem parseVal_obj_head (fuel : Nat) : ∀ l fs r,
    parseVal fuel l = some (.obj fs, r) →
    ∃ cs, l.dropWhile jsonWsChar = lbrace :: cs := by
  cases fuel with
  | zero => intro l fs r h; exact absurd h (by simp [parseVal])
  | succ fuel =>
    intro l fs r h
    unfold parseVal at h
    split at h
    · exact absurd h (by simp)
    · rename_i c cs heq
      by_cases hc : c = lbrace
      · exact ⟨cs, by rw [heq, hc]⟩
      · rw [if_neg hc] at h
        split at h
        · -- the '[' branch yields arrays
          split at h
          · split at h
            · exact absurd (congrArg Prod.fst (Option.some.inj h)) (by simp)
            · obtain ⟨xs, hxs⟩ := parseItems_shape fuel _ _ _ _ h
              exact absurd hxs (by simp)
          · exact absurd h (by simp)
        · split at h
          · -- the string branch yields strings
            split at h
            · exact absurd (congrArg Prod.fst (Option.some.inj h)) (by simp)
            · exact absurd h (by simp)
          · split at h
            · split at h
              · exact absurd (congrArg Prod.fst (Option.some.inj h)) (by simp)
              · exact absurd h (by simp)
            · split at h
              · split at h
                · exact absurd (congrArg Prod.fst (Option.some.inj h)) (by simp)
                · exact absurd h (by simp)
              · split at h
                · split at h
                  · exact absurd (congrArg Prod.fst (Option.some.inj h)) (by simp)
                  · exact absurd h (by simp)
                · obtain ⟨n, hn⟩ := parseNumber_shape _ _ _ h
                  exact absurd hn (by simp)

/-- A successful `loads` of an object also starts (after whitespace) with an
opening brace, hence contains one. -/
theorem loads_obj_brace (l : List Char) (fs : JObj)
    (h : loads l = some (.obj fs)) : lbrace ∈ l := by
  unfold loads at h
  split at h
  · rename_i v rest heq
    split at h
    · obtain ⟨cs, hcs⟩ := parseVal_obj_head _ _ _ _ (by rw [heq, Option.some.inj h])
      have : lbrace ∈ l.dropWhile jsonWsChar := by rw [hcs]; exact List.mem_cons_self _ _
      exact (List.dropWhile_sublist _).mem this
    · exact absurd h (by simp)
  · exact absurd h (by simp)

/-- Right trim is a sublist operation. -/
theorem trimRightBy_sublist (p : Char → Bool) (l : List Char) :
    List.Sublist (trimRightBy p l) l := by
  have h : List.Sublist (l.reverse.dropWhile p) l.reverse := List.dropWhile_sublist _
  have h2 : List.Sublist (l.reverse.dropWhile p).reverse l.reverse.reverse := h.reverse
  rwa [List.reverse_reverse] at h2

/-- Strip is a sublist operation. -/
theorem stripList_sublist (l : List Char) : List.Sublist (stripList l) l :=
  (trimRightBy_sublist _ _).trans (List.dropWhile_sublist _)

/-- Backtick trimming is a sublist operation. -/
theorem trimTicks_sublist (l : List Char) :
    List.Sublist (trimRightBy (fun c => c == btick) (trimLeftBy (fun c => c == btick) l)) l :=
  (trimRightBy_sublist _ _).trans (List.dropWhile_sublist _)

/-- Replacement with a brace-free replacement cannot introduce a brace. -/
theorem replaceGo_not_mem (pat rep : List Char) (c0 : Char) (hrep : c0 ∉ rep) :
    ∀ fuel l, c0 ∉ l → c0 ∉ replaceGo pat rep fuel l := by
  intro fuel
  induction fuel with
  | zero => intro l hl; exact hl
  | succ fuel ih =>
    intro l hl
    cases l with
    | nil => intro hmem; simp [replaceGo] at hmem
    | cons c cs =>
      show c0 ∉ (if pat.isPrefixOf (c :: cs)
        then rep ++ replaceGo pat rep fuel ((c :: cs).drop pat.length)
        else c :: replaceGo pat rep fuel cs)
      split
      · intro hmem
        rcases List.mem_append.1 hmem with h | h
        · exact hrep h
        · exact ih _ (fun hx => hl ((List.drop_subset _ _) hx)) h
      · intro hmem
        rcases List.mem_cons.1 hmem with h | h
        · exact hl (h ▸ List.mem_cons_self _ _)
        · exact ih _ (fun hx => hl (List.mem_cons_of_mem _ hx)) h

/-- The cleaned text contains no brace when the input contains none. -/
theorem cleanedText_no_brace (text : String) (h : lbrace ∉ text.data) :
    lbrace ∉ cleanedText text := by
  have h1 : lbrace ∉ stripList text.data :=
    fun hx => h ((stripList_sublist _).mem hx)
  have h2 : lbrace ∉ replaceList fencePat fenceRep (stripList text.data) :=
    replaceGo_not_mem _ _ _ (by decide) _ _ h1
  simp only [cleanedText]
  split
  · intro hx
    exact h2 ((trimTicks_sublist _).mem ((stripList_sublist _).mem hx))
  · exact h2

/-- Every error the scan loop produces is the diagnostic message carrying the
original input text. -/
theorem extractScan_error (cleaned : List Char) (text : String) :
    ∀ ps e, extractScan cleaned text ps = .error e → e = parseErrorMsg text := by
  intro ps
  induction ps with
  | nil => intro e h; exact (Except.error.inj h).symm
  | cons p ps ih =>
    intro e h
    unfold extractScan at h
    split at h
    · exact absurd h (by simp)
    · exact ih e h

/-- A successful inner scan exhibits a prefix of the scanned suffix that
loads as the returned mapping. -/
theorem innerScanGo_evidence (s : List Char) : ∀ rem d n fs,
    innerScanGo s rem d n = some fs →
    ∃ k, loads (s.take k) = some (.obj fs) := by
  intro rem
  induction rem with
  | nil => intro d n fs h; exact absurd h (by simp [innerScanGo])
  | cons c rest ih =>
    intro d n fs h
    simp only [innerScanGo] at h
    by_cases hc : c = lbrace
    · rw [if_pos hc] at h
      exact ih _ _ _ h
    · rw [if_neg hc] at h
      by_cases hr : c = rbrace
      · rw [if_pos hr] at h
        by_cases hd : d - 1 = 0
        · rw [if_pos hd] at h
          cases hload : loads (s.take (n + 1)) with
          | none => rw [hload] at h; exact absurd h (by simp)
          | some v =>
            rw [hload] at h
            cases v with
            | obj fs2 =>
              exact ⟨n + 1, by rw [hload, Option.some.inj h]⟩
            | null => exact ih _ _ _ h
            | bool b => exact ih _ _ _ h
            | num m => exact ih _ _ _ h
            | str s2 => exact ih _ _ _ h
            | arr xs => exact ih _ _ _ h
        · rw [if_neg hd] at h
          exact ih _ _ _ h
      · rw [if_neg hr] at h
        exact ih _ _ _ h

/-- A successful scan exhibits an infix of the cleaned text that loads as
the returned mapping. -/
theorem extractScan_evidence (cleaned : List Char) (text : String) :
    ∀ ps fs, extractScan cleaned text ps = .ok fs →
    ∃ sub, sub <:+: cleaned ∧ loads sub = some (.obj fs) := by
  intro ps
  induction ps with
  | nil => intro fs h; exact absurd h (by simp [extractScan])
  | cons p ps ih =>
    intro fs h
    unfold extractScan at h
    split at h
    · rename_i heq
      obtain ⟨k, hk⟩ := innerScanGo_evidence _ _ _ _ _ heq
      refine ⟨(cleaned.drop p).take k, ?_, by rw [hk, Except.ok.inj h]⟩
      exact List.infix_iff_prefix_suffix.2
        ⟨cleaned.drop p, List.take_prefix _ _, List.drop_suffix _ _⟩
    · exact ih _ h

/-- C4: if no candidate substring of the cleaned text parses as a JSON
mapping, the extractor fails with the `ValueError` whose message carries the
original input text — in particular on any input containing no opening
brace. -/
theorem extract_no_candidate_error (text : String) :
    ((∀ sub : List Char, sub <:+: cleanedText text →
        ∀ fs : JObj, loads sub ≠ some (.obj fs)) →
      extractJsonDict text = .error (parseErrorMsg text)) ∧
    (lbrace ∉ text.data →
      extractJsonDict text = .error (parseErrorMsg text)) := by
  have main : (∀ sub : List Char, sub <:+: cleanedText text →
      ∀ fs : JObj, loads sub ≠ some (.obj fs)) →
      extractJsonDict text = .error (parseErrorMsg text) := by
    intro hno
    simp only [extractJsonDict]
    split
    · rename_i fs heq
      exact absurd heq (hno _ (List.infix_refl _) fs)
    · cases hres : extractScan (cleanedText text) text (bracePositions (cleanedText text)) with
      | ok fs =>
        obtain ⟨sub, hsub, hload⟩ := extractScan_evidence _ _ _ _ hres
        exact absurd hload (hno sub hsub fs)
      | error e =>
        rw [extractScan_error _ _ _ _ hres]
  refine ⟨main, fun hnb => main ?_⟩
  intro sub hsub fs hload
  have : lbrace ∈ cleanedText text := hsub.sublist.mem (loads_obj_brace _ _ hload)
  exact cleanedText_no_brace text hnb this

/-- Digit accumulation distributes over append. -/
theorem digitsToNat_append (xs ys : List Char) :
    ∀ acc, digitsToNat (xs ++ ys) acc = digitsToNat ys (digitsToNat xs acc) := by
  induction xs with
  | nil => intro acc; rfl
  | cons c cs ih => intro acc; exact ih _

/-- A digit character for a value below ten is a decimal digit with the
expected code point. -/
theorem digitChar_props (d : Nat) (hd : d < 10) :
    (digitChar d).isDigit = true ∧ (digitChar d).toNat = 48 + d := by
  interval_cases d <;> exact ⟨by decide, by decide⟩

/-- The digit character is zero exactly for the value zero. -/
theorem digitChar_zero_iff (d : Nat) (hd : d < 10) : digitChar d = '0' ↔ d = 0 := by
  interval_cases d <;> decide

/-- Characterization of the decimal printer: with enough fuel it emits a
non-empty digit string that evaluates back to the number, and its first
digit is zero only when the whole number is zero (printed as the single
digit zero). -/
theorem natCharsGo_spec (m : Nat) : ∀ fuel acc, m < fuel →
    ∃ ds, natCharsGo fuel m acc = ds ++ acc ∧ ds ≠ [] ∧
      (∀ c ∈ ds, c.isDigit = true) ∧ digitsToNat ds 0 = m ∧
      (∀ d t, ds = d :: t → d = '0' → ds = ['0'] ∧ m = 0) := by
  induction m using Nat.strong_induction_on with
  | _ m ihm =>
    intro fuel acc hfuel
    match fuel, hfuel with
    | fuel + 1, _ =>
      by_cases hm : m < 10
      · refine ⟨[digitChar m], by simp [natCharsGo, hm], by simp, ?_, ?_, ?_⟩
        · intro c hc
          rw [List.mem_singleton.mp hc]
          exact (digitChar_props m hm).1
        · show digitsToNat [] (0 * 10 + ((digitChar m).toNat - 48)) = m
          rw [(digitChar_props m hm).2]
          show 0 * 10 + (48 + m - 48) = m
          omega
        · intro d t hdt h0
          have hd : d = digitChar m := (List.cons.inj hdt.symm).1
          have : m = 0 := (digitChar_zero_iff m hm).mp (hd ▸ h0)
          subst this
          exact ⟨by rw [hdt, show t = [] from (List.cons.inj hdt.symm).2, h0], rfl⟩
      · have hm0 : 0 < m := by omega
        have h10 : m / 10 < m := Nat.div_lt_self hm0 (by omega)
        have hf : m / 10 < fuel := by omega
        obtain ⟨ds, hds, hne, hdig, hval, hzero⟩ :=
          ihm (m / 10) h10 fuel (digitChar (m % 10) :: acc) hf
        have hm10 : m % 10 < 10 := Nat.mod_lt _ (by omega)
        refine ⟨ds ++ [digitChar (m % 10)], ?_, by simp, ?_, ?_, ?_⟩
        · show natCharsGo (fuel + 1) m acc = _
          rw [natCharsGo, if_neg hm, hds, List.append_assoc]
          rfl
        · intro c hc
          rcases List.mem_append.1 hc with h | h
          · exact hdig c h
          · rw [List.mem_singleton.mp h]
            exact (digitChar_props _ hm10).1
        · rw [digitsToNat_append, hval]
          show digitsToNat [] (m / 10 * 10 + ((digitChar (m % 10)).toNat - 48)) = m
          rw [(digitChar_props _ hm10).2]
          show m / 10 * 10 + (48 + m % 10 - 48) = m
          omega
        · intro d t hdt h0
          cases hds2 : ds with
          | nil => exact absurd hds2 hne
          | cons d2 t2 =>
            have hd2 : d = d2 := by
              rw [hds2] at hdt
              exact (List.cons.inj hdt.symm).1
            have := (hzero d2 t2 hds2 (hd2 ▸ h0)).2
            have hge : 1 ≤ m / 10 := (Nat.le_div_iff_mul_le (by omega)).2 (by omega)
            omega

/-- Specification of the decimal printer at its published fuel. -/
theorem natChars_spec (m : Nat) :
    natChars m ≠ [] ∧ (∀ c ∈ natChars m, c.isDigit = true) ∧
      digitsToNat (natChars m) 0 = m ∧
      (∀ d t, natChars m = d :: t → d = '0' → natChars m = ['0'] ∧ m = 0) := by
  obtain ⟨ds, hds, hne, hdig, hval, hzero⟩ := natCharsGo_spec m (m + 1) [] (by omega)
  have : natChars m = ds := by rw [natChars, hds, List.append_nil]
  rw [this]
  exact ⟨hne, hdig, hval, hzero⟩

/-- `takeDigits` splits a digit run followed by a non-digit exactly. -/
theorem takeDigits_append (ds rest : List Char)
    (hdig : ∀ c ∈ ds, c.isDigit = true)
    (hrest : ∀ c t, rest = c :: t → c.isDigit = false) :
    takeDigits (ds ++ rest) = (ds, rest) := by
  induction ds with
  | nil =>
    cases rest with
    | nil => rfl
    | cons c t => simp [takeDigits, hrest c t rfl]
  | cons d ds ih =>
    have hd := hdig d (List.mem_cons_self _ _)
    simp [takeDigits, hd, ih (fun c hc => hdig c (List.mem_cons_of_mem _ hc))]

/-- A decimal digit is not a minus sign. -/
theorem isDigit_ne_minus (c : Char) (h : c.isDigit = true) : c ≠ '-' := by
  intro heq
  rw [heq] at h
  exact absurd h (by decide)

/-- The unsigned number parse inverts the decimal printer. -/
theorem parseNumAbs_natChars (neg : Bool) (m : Nat) (rest : List Char)
    (hrest : ∀ c t, rest = c :: t → c.isDigit = false ∧ c ≠ '.' ∧ c ≠ 'e' ∧ c ≠ 'E') :
    parseNumAbs neg (natChars m ++ rest)
      = some (.num (if neg then -Int.ofNat m else Int.ofNat m), rest) := by
  obtain ⟨hnem, hdig, hval, hzero⟩ := natChars_spec m
  have hff : floatFollows rest = false := by
    cases rest with
    | nil => rfl
    | cons c t =>
      obtain ⟨-, h1, h2, h3⟩ := hrest c t rfl
      simp [floatFollows, beq_eq_false_iff_ne, h1, h2, h3]
  unfold parseNumAbs
  rw [takeDigits_append _ _ hdig (fun c t h => (hrest c t h).1)]
  cases hds : natChars m with
  | nil => exact absurd hds hnem
  | cons d ds =>
    have hlz : ¬(d = '0' ∧ ds ≠ []) := by
      rintro ⟨h0, hne2⟩
      have := (hzero d ds hds h0).1
      rw [hds] at this
      exact hne2 (List.cons.inj this).2
    dsimp only
    rw [if_neg hlz, if_neg (by rw [hff]; exact Bool.false_ne_true)]
    rw [← hds, hval]

/-- The number parse inverts the integer printer when no digit, decimal
point or exponent tag follows. -/
theorem parseNumber_intChars (n : Int) (rest : List Char)
    (hrest : ∀ c t, rest = c :: t → c.isDigit = false ∧ c ≠ '.' ∧ c ≠ 'e' ∧ c ≠ 'E') :
    parseNumber (intChars n ++ rest) = some (.num n, rest) := by
  cases n with
  | ofNat m =>
    show parseNumber (natChars m ++ rest) = _
    obtain ⟨hnem, hdig, -, -⟩ := natChars_spec m
    cases hds : natChars m with
    | nil => exact absurd hds hnem
    | cons d ds =>
      have hd : d.isDigit = true := hdig d (by rw [hds]; exact List.mem_cons_self _ _)
      show (if d = '-' then parseNumAbs true (ds ++ rest)
            else parseNumAbs false (d :: (ds ++ rest))) = _
      rw [if_neg (isDigit_ne_minus d hd)]
      have heq : d :: (ds ++ rest) = natChars m ++ rest := by rw [hds]; rfl
      rw [heq, parseNumAbs_natChars false m rest hrest, if_neg Bool.false_ne_true]
  | negSucc m =>
    show (if ('-' : Char) = '-' then parseNumAbs true (natChars (m + 1) ++ rest)
          else parseNumAbs false ('-' :: (natChars (m + 1) ++ rest))) = _
    rw [if_pos rfl, parseNumAbs_natChars true (m + 1) rest hrest]
    have : -Int.ofNat (m + 1) = Int.negSucc m := by
      rw [Int.negSucc_eq]
      norm_cast
    rw [if_pos rfl, this]

/-- Hex digits decode to their values. -/
theorem hexVal_hexDigitChar (d : Nat) (hd : d < 16) :
    hexVal? (hexDigitChar d) = some d := by
  interval_cases d <;> decide

/-- Decoding the code point of a below-surrogate character restores it. -/
theorem charOfNat_toNat (c : Char) (h : c.toNat < 0xd800) :
    charOfNat? c.toNat = some c := by
  have hv : Nat.isValidChar c.toNat := Or.inl h
  unfold charOfNat?
  rw [dif_pos hv]
  refine congrArg some ?_
  have hc := Char.ofNat_toNat c
  unfold Char.ofNat at hc
  rwa [dif_pos hv] at hc

/-- Four hex digits parse to their place-value combination. -/
theorem parseHex4_cons (h1 h2 h3 h4 : Char) (a b c d : Nat) (rest : List Char)
    (e1 : hexVal? h1 = some a) (e2 : hexVal? h2 = some b)
    (e3 : hexVal? h3 = some c) (e4 : hexVal? h4 = some d) :
    parseHex4 (h1 :: h2 :: h3 :: h4 :: rest)
      = some (((a * 16 + b) * 16 + c) * 16 + d, rest) := by
  unfold parseHex4
  dsimp only
  rw [e1, e2, e3, e4]

/-- The string-body parse at a closing quote. -/
theorem psb_quote (f : Nat) (rest : List Char) :
    parseStringBody (f + 1) ('"' :: rest) = some ([], rest) := rfl

/-- The string-body parse at a single-letter escape. -/
theorem psb_esc (f : Nat) (e ch : Char) (X : List Char)
    (hu : ¬ e = 'u') (h : escDecode e = some ch) :
    parseStringBody (f + 1) ('\\' :: e :: X)
      = (match parseStringBody f X with
         | some (sd, r) => some (ch :: sd, r)
         | none => none) := by
  rw [parseStringBody.eq_def]
  dsimp only
  rw [if_neg (by decide : ¬('\\' : Char) = '"'), if_pos rfl]
  rw [if_neg hu, h]

/-- The string-body parse at a `\u` escape. -/
theorem psb_u (f : Nat) (ch : Char) (X cs3 : List Char)
    (h : parseU X = some (ch, cs3)) :
    parseStringBody (f + 1) ('\\' :: 'u' :: X)
      = (match parseStringBody f cs3 with
         | some (sd, r) => some (ch :: sd, r)
         | none => none) := by
  rw [parseStringBody.eq_def]
  dsimp only
  rw [if_neg (by decide : ¬('\\' : Char) = '"'), if_pos rfl]
  rw [if_pos rfl, h]

/-- The string-body parse at a plain character. -/
theorem psb_plain (f : Nat) (c : Char) (X : List Char)
    (h1 : ¬ c = '"') (h2 : ¬ c = '\\') (h3 : ¬ c.toNat < 32) :
    parseStringBody (f + 1) (c :: X)
      = (match parseStringBody f X with
         | some (sd, r) => some (c :: sd, r)
         | none => none) := by
  rw [parseStringBody.eq_def]
  dsimp only
  rw [if_neg h1, if_neg h2, if_neg h3]

/-- `parseU` decodes the `\u00XX` form of a control character. -/
theorem parseU_low (c : Char) (h : c.toNat < 32) (T : List Char) :
    parseU ('0' :: '0' :: hexDigitChar (c.toNat / 16)
        :: hexDigitChar (c.toNat % 16) :: T) = some (c, T) := by
  unfold parseU
  rw [parseHex4_cons '0' '0' (hexDigitChar (c.toNat / 16))
    (hexDigitChar (c.toNat % 16)) 0 0 (c.toNat / 16) (c.toNat % 16) T rfl rfl
    (hexVal_hexDigitChar (c.toNat / 16) (by omega))
    (hexVal_hexDigitChar (c.toNat % 16) (by omega))]
  dsimp only
  rw [if_neg (by omega :
      ¬(0xd800 ≤ ((0 * 16 + 0) * 16 + c.toNat / 16) * 16 + c.toNat % 16
        ∧ ((0 * 16 + 0) * 16 + c.toNat / 16) * 16 + c.toNat % 16 ≤ 0xdbff)),
    if_neg (by omega :
      ¬(0xdc00 ≤ ((0 * 16 + 0) * 16 + c.toNat / 16) * 16 + c.toNat % 16
        ∧ ((0 * 16 + 0) * 16 + c.toNat / 16) * 16 + c.toNat % 16 ≤ 0xdfff)),
    show ((0 * 16 + 0) * 16 + c.toNat / 16) * 16 + c.toNat % 16 = c.toNat from by omega,
    charOfNat_toNat c (by omega)]

/-- The string-body parse inverts the JSON escape: an escaped character
sequence followed by the closing quote parses back to the original
characters, leaving the rest untouched, whenever the fuel exceeds the
number of characters. -/
theorem parseStringBody_escape (cs : List Char) : ∀ fuel rest, cs.length < fuel →
    parseStringBody fuel (escapeList cs ++ '"' :: rest) = some (cs, rest) := by
  induction cs with
  | nil =>
    intro fuel rest hf
    obtain ⟨f, rfl⟩ : ∃ f, fuel = f + 1 := ⟨fuel - 1, by omega⟩
    exact psb_quote f rest
  | cons c cs ih =>
    intro fuel rest hf
    obtain ⟨f, rfl⟩ : ∃ f, fuel = f + 1 := ⟨fuel - 1, by omega⟩
    have hf2 : cs.length < f := by
      have hl : (c :: cs).length = cs.length + 1 := rfl
      omega
    show parseStringBody (f + 1) ((escapeChar c ++ escapeList cs) ++ '"' :: rest) = _
    rw [List.append_assoc]
    by_cases h1 : c = '"'
    · subst h1
      rw [show escapeChar '"' = ['\\', '"'] from rfl,
        show ('\\' :: '"' :: []) ++ (escapeList cs ++ '"' :: rest)
          = '\\' :: '"' :: (escapeList cs ++ '"' :: rest) from rfl,
        psb_esc f '"' '"' _ (by decide) rfl, ih f rest hf2]
    · by_cases h2 : c = '\\'
      · subst h2
        rw [show escapeChar '\\' = ['\\', '\\'] from rfl,
          show ('\\' :: '\\' :: []) ++ (escapeList cs ++ '"' :: rest)
            = '\\' :: '\\' :: (escapeList cs ++ '"' :: rest) from rfl,
          psb_esc f '\\' '\\' _ (by decide) rfl, ih f rest hf2]
      · by_cases h3 : c.toNat = 8
        · have hc : c = Char.ofNat 8 := by rw [← h3, Char.ofNat_toNat]
          subst hc
          rw [show escapeChar (Char.ofNat 8) = ['\\', 'b'] from rfl,
            show ('\\' :: 'b' :: []) ++ (escapeList cs ++ '"' :: rest)
              = '\\' :: 'b' :: (escapeList cs ++ '"' :: rest) from rfl,
            psb_esc f 'b' (Char.ofNat 8) _ (by decide) rfl, ih f rest hf2]
        · by_cases h4 : c = '\t'
          · subst h4
            rw [show escapeChar '\t' = ['\\', 't'] from rfl,
              show ('\\' :: 't' :: []) ++ (escapeList cs ++ '"' :: rest)
                = '\\' :: 't' :: (escapeList cs ++ '"' :: rest) from rfl,
              psb_esc f 't' '\t' _ (by decide) rfl, ih f rest hf2]
          · by_cases h5 : c = '\n'
            · subst h5
              rw [show escapeChar '\n' = ['\\', 'n'] from rfl,
                show ('\\' :: 'n' :: []) ++ (escapeList cs ++ '"' :: rest)
                  = '\\' :: 'n' :: (escapeList cs ++ '"' :: rest) from rfl,
                psb_esc f 'n' '\n' _ (by decide) rfl, ih f rest hf2]
            · by_cases h6 : c.toNat = 12
              · have hc : c = Char.ofNat 12 := by rw [← h6, Char.ofNat_toNat]
                subst hc
                rw [show escapeChar (Char.ofNat 12) = ['\\', 'f'] from rfl,
                  show ('\\' :: 'f' :: []) ++ (escapeList cs ++ '"' :: rest)
                    = '\\' :: 'f' :: (escapeList cs ++ '"' :: rest) from rfl,
                  psb_esc f 'f' (Char.ofNat 12) _ (by decide) rfl, ih f rest hf2]
              · by_cases h7 : c = '\r'
                · subst h7
                  rw [show escapeChar '\r' = ['\\', 'r'] from rfl,
                    show ('\\' :: 'r' :: []) ++ (escapeList cs ++ '"' :: rest)
                      = '\\' :: 'r' :: (escapeList cs ++ '"' :: rest) from rfl,
                    psb_esc f 'r' '\r' _ (by decide) rfl, ih f rest hf2]
                · by_cases h8 : c.toNat < 32
                  · have he : escapeChar c = ['\\', 'u', '0', '0',
                        hexDigitChar (c.toNat / 16), hexDigitChar (c.toNat % 16)] := by
                      unfold escapeChar
                      rw [if_neg h1, if_neg h2, if_neg h3, if_neg h4, if_neg h5,
                        if_neg h6, if_neg h7, if_pos h8]
                    rw [he]
                    show parseStringBody (f + 1) ('\\' :: 'u' :: '0' :: '0' ::
                      hexDigitChar (c.toNat / 16) :: hexDigitChar (c.toNat % 16) ::
                      (escapeList cs ++ '"' :: rest)) = _
                    rw [psb_u f c _ _ (parseU_low c h8 _), ih f rest hf2]
                  · have he : escapeChar c = [c] := by
                      unfold escapeChar
                      rw [if_neg h1, if_neg h2, if_neg h3, if_neg h4, if_neg h5,
                        if_neg h6, if_neg h7, if_neg h8]
                    rw [he]
                    show parseStringBody (f + 1)
                      (c :: (escapeList cs ++ '"' :: rest)) = _
                    rw [psb_plain f c _ h1 h2 (by omega), ih f rest hf2]

/-- C4 witness: the no-brace conjunct at the concrete input `"hello"`. -/
theorem extract_no_candidate_error_witness :
    extractJsonDict "hello" = .error (parseErrorMsg "hello") :=
  (extract_no_candidate_error "hello").2 (by decide)

/-- C5 witness: the spec's failure scenario — the Phase 2 response is prose
with no embedded JSON object, so `analyze` raises the extractor's error after
exactly three chat calls, before any Phase 3 call is attempted. -/
theorem pipeline_abort_policy_witness :
    analyzeMock
        [.ok "\x7b\"internal_knowledge\": []\x7d",
         .ok "\x7b\"stated_goal\": \"g\"\x7d",
         .ok "just prose, no JSON object"] "stmt"
      = (.error (.parseErr (parseErrorMsg "just prose, no JSON object")), 3) :=
  (pipeline_abort_policy _ "stmt").1 2
    (.parseErr (parseErrorMsg "just prose, no JSON object")) (by omega)
    (fun j hj => by
      interval_cases j
      · exact ⟨[("internal_knowledge", .arr [])], rfl⟩
      · exact ⟨[("stated_goal", .str "g")], rfl⟩)
    rfl

/-- Escaping never shortens: every character emits at least one character. -/
theorem escapeChar_length_pos (c : Char) : 1 ≤ (escapeChar c).length := by
  unfold escapeChar
  split_ifs <;> simp

/-- The escaped form is at least as long as the original. -/
theorem escapeList_length_le (cs : List Char) :
    cs.length ≤ (escapeList cs).length := by
  induction cs with
  | nil => exact Nat.le_refl 0
  | cons c cs ih =>
    have h := escapeChar_length_pos c
    simp only [escapeList, List.length_append, List.length_cons]
    omega

/-- A decimal digit character is not a whitespace or structural character. -/
theorem digit_head_facts (c : Char) (h : c.isDigit = true) :
    jsonWsChar c = false ∧ ¬ c = lbrace ∧ ¬ c = '[' ∧ ¬ c = '"' ∧
      ¬ c = 't' ∧ ¬ c = 'f' ∧ ¬ c = 'n' ∧ ¬ c = ']' ∧ ¬ c = rbrace := by
  have hs : ¬ c = ' ' := fun he => absurd (he ▸ h) (by decide)
  have htb : ¬ c = '\t' := fun he => absurd (he ▸ h) (by decide)
  have hnl : ¬ c = '\n' := fun he => absurd (he ▸ h) (by decide)
  have hcr : ¬ c = '\r' := fun he => absurd (he ▸ h) (by decide)
  refine ⟨?_, fun he => absurd (he ▸ h) (by decide),
    fun he => absurd (he ▸ h) (by decide), fun he => absurd (he ▸ h) (by decide),
    fun he => absurd (he ▸ h) (by decide), fun he => absurd (he ▸ h) (by decide),
    fun he => absurd (he ▸ h) (by decide), fun he => absurd (he ▸ h) (by decide),
    fun he => absurd (he ▸ h) (by decide)⟩
  unfold jsonWsChar
  simp only [Bool.or_eq_false_iff, beq_eq_false_iff_ne, ne_eq]
  exact ⟨⟨⟨hs, htb⟩, hnl⟩, hcr⟩

/-- Every serialized value starts with a character that is not whitespace
and not a closing delimiter. -/
theorem dumpsV_head (v : JVal) : ∃ c cs, dumpsV v = c :: cs ∧
    jsonWsChar c = false ∧ ¬ c = ']' ∧ ¬ c = rbrace := by
  cases v with
  | null =>
    refine ⟨'n', _, rfl, ?_, ?_, ?_⟩ <;> decide
  | bool b =>
    cases b
    · refine ⟨'f', _, rfl, ?_, ?_, ?_⟩ <;> decide
    · refine ⟨'t', _, rfl, ?_, ?_, ?_⟩ <;> decide
  | num n =>
    cases n with
    | ofNat m =>
      obtain ⟨hne, hdig, -, -⟩ := natChars_spec m
      cases hds : natChars m with
      | nil => exact absurd hds hne
      | cons d t =>
        have hd : d.isDigit = true := hdig d (hds ▸ List.mem_cons_self d t)
        obtain ⟨hws, -, -, -, -, -, -, h8, h9⟩ := digit_head_facts d hd
        exact ⟨d, t, hds, hws, h8, h9⟩
    | negSucc m =>
      exact ⟨'-', _, rfl, by decide, by decide, by decide⟩
  | str s => exact ⟨'"', _, rfl, by decide, by decide, by decide⟩
  | arr xs => cases xs with
    | nil => exact ⟨'[', _, rfl, by decide, by decide, by decide⟩
    | cons x xs => exact ⟨'[', _, rfl, by decide, by decide, by decide⟩
  | obj fs => cases fs with
    | nil => exact ⟨lbrace, _, rfl, by decide, by decide, by decide⟩
    | cons kv fs =>
      obtain ⟨k, v⟩ := kv
      exact ⟨lbrace, _, rfl, by decide, by decide, by decide⟩

/-- Inserting a key fresh for the accumulated dictionary appends it. -/
theorem objInsert_fresh (acc : JObj) (k : String) (v : JVal)
    (h : ∀ a ∈ acc, (a.1 == k) = false) :
    objInsert acc k v = acc ++ [(k, v)] := by
  unfold objInsert
  rw [if_neg]
  intro hany
  obtain ⟨a, ha, hk⟩ := List.any_eq_true.mp hany
  rw [h a ha] at hk
  exact Bool.false_ne_true hk

/-- Canonicity of a concatenation gives canonicity of the suffix. -/
theorem canonicalFields_drop (l1 l2 : JObj) :
    canonicalFields (l1 ++ l2) = true → canonicalFields l2 = true := by
  induction l1 with
  | nil => exact id
  | cons a l1 ih =>
    intro h
    obtain ⟨k, v⟩ := a
    rw [show ((k, v) :: l1) ++ l2 = (k, v) :: (l1 ++ l2) from rfl] at h
    unfold canonicalFields at h
    exact ih (Bool.and_elim_right h)

/-- In a canonical field list every key left of a binding differs from it. -/
theorem canonicalFields_fresh (l1 : JObj) (k : String) (v : JVal) (l2 : JObj) :
    canonicalFields (l1 ++ (k, v) :: l2) = true →
    ∀ a ∈ l1, (a.1 == k) = false := by
  induction l1 with
  | nil => intro _ a ha; exact absurd ha (List.not_mem_nil a)
  | cons b l1 ih =>
    intro h a ha
    obtain ⟨kb, vb⟩ := b
    rw [show ((kb, vb) :: l1) ++ (k, v) :: l2 = (kb, vb) :: (l1 ++ (k, v) :: l2)
      from rfl] at h
    unfold canonicalFields at h
    have hhead := Bool.and_elim_left (Bool.and_elim_left h)
    have htail := Bool.and_elim_right h
    rcases List.mem_cons.mp ha with heq | hmem
    · subst heq
      have := List.all_eq_true.mp hhead (k, v)
        (List.mem_append_right l1 (List.mem_cons_self _ _))
      simp only [Bool.not_eq_true'] at this
      simp only [beq_eq_false_iff_ne, ne_eq] at this ⊢
      exact fun he => this he.symm
    · exact ih htail a hmem

/-- The serialized continuation after an object value cannot extend a number:
it starts with a comma or the closing brace. -/
theorem numSafe_dumpsFields (v : JVal) (fs : JObj) (tail : List Char) :
    numSafe v (dumpsFields fs ++ rbrace :: tail) := by
  cases v with
  | num n =>
    cases fs with
    | nil => exact ⟨by decide, by decide, by decide, by decide⟩
    | cons kv fs =>
      obtain ⟨k, w⟩ := kv
      exact ⟨by decide, by decide, by decide, by decide⟩
  | null => trivial
  | bool b => trivial
  | str s => trivial
  | arr xs => trivial
  | obj gs => trivial

/-- The serialized continuation after an array item cannot extend a number:
it starts with a comma or the closing bracket. -/
theorem numSafe_dumpsItems (v : JVal) (xs : List JVal) (tail : List Char) :
    numSafe v (dumpsItems xs ++ ']' :: tail) := by
  cases v with
  | num n =>
    cases xs with
    | nil => exact ⟨by decide, by decide, by decide, by decide⟩
    | cons x xs => exact ⟨by decide, by decide, by decide, by decide⟩
  | null => trivial
  | bool b => trivial
  | str s => trivial
  | arr ys => trivial
  | obj gs => trivial


/-- `parseVal` skips a leading whitespace character. -/
theorem parseVal_ws (f : Nat) (c : Char) (hc : jsonWsChar c = true) (l : List Char) :
    parseVal (f + 1) (c :: l) = parseVal (f + 1) l := by
  rw [parseVal.eq_def]
  rw [parseVal.eq_def]
  dsimp only
  rw [List.dropWhile_cons, if_pos hc]

/-- `parseFields` skips a leading whitespace character. -/
theorem parseFields_ws (f : Nat) (c : Char) (hc : jsonWsChar c = true)
    (l : List Char) (acc : JObj) :
    parseFields (f + 1) (c :: l) acc = parseFields (f + 1) l acc := by
  rw [parseFields.eq_def]
  rw [parseFields.eq_def]
  dsimp only
  rw [List.dropWhile_cons, if_pos hc]

/-- `parseItems` skips a leading whitespace character. -/
theorem parseItems_ws (f : Nat) (c : Char) (hc : jsonWsChar c = true)
    (l : List Char) (acc : List JVal) :
    parseItems (f + 1) (c :: l) acc = parseItems (f + 1) l acc := by
  cases f with
  | zero => rfl
  | succ g =>
    rw [parseItems.eq_def]
    rw [parseItems.eq_def]
    dsimp only
    rw [parseVal_ws g c hc l]

/-- `parseVal` at the literal `null`. -/
theorem parseVal_null (f : Nat) (tail : List Char) :
    parseVal (f + 1) ('n' :: 'u' :: 'l' :: 'l' :: tail) = some (.null, tail) := rfl

/-- `parseVal` at the literal `true`. -/
theorem parseVal_true (f : Nat) (tail : List Char) :
    parseVal (f + 1) ('t' :: 'r' :: 'u' :: 'e' :: tail) = some (.bool true, tail) := rfl

/-- `parseVal` at the literal `false`. -/
theorem parseVal_false (f : Nat) (tail : List Char) :
    parseVal (f + 1) ('f' :: 'a' :: 'l' :: 's' :: 'e' :: tail)
      = some (.bool false, tail) := rfl

/-- `parseVal` at an empty array. -/
theorem parseVal_empty_arr (f : Nat) (tail : List Char) :
    parseVal (f + 1) ('[' :: ']' :: tail) = some (.arr [], tail) := rfl

/-- `parseVal` at an empty object. -/
theorem parseVal_empty_obj (f : Nat) (tail : List Char) :
    parseVal (f + 1) (lbrace :: rbrace :: tail) = some (.obj [], tail) := rfl

/-- `parseVal` at an opening quote defers to the string-body parse. -/
theorem parseVal_quote (f : Nat) (cs : List Char) :
    parseVal (f + 1) ('"' :: cs)
      = (match parseStringBody (cs.length + 1) cs with
         | some (sd, rest) => some (.str (String.mk sd), rest)
         | none => none) := by
  rw [parseVal.eq_def]
  dsimp only
  rw [List.dropWhile_cons, if_neg (by decide : ¬ jsonWsChar '"' = true)]
  dsimp only
  rw [if_neg (by decide : ¬ ('"' : Char) = lbrace),
    if_neg (by decide : ¬ ('"' : Char) = '['), if_pos rfl]

/-- `parseVal` at a non-empty object defers to the field parse. -/
theorem parseVal_obj_step (f : Nat) (c2 : Char) (cs2 : List Char)
    (hws : jsonWsChar c2 = false) (hne : ¬ c2 = rbrace) :
    parseVal (f + 1) (lbrace :: c2 :: cs2) = parseFields f (c2 :: cs2) [] := by
  rw [parseVal.eq_def]
  dsimp only
  rw [List.dropWhile_cons, if_neg (by decide : ¬ jsonWsChar lbrace = true)]
  dsimp only
  rw [if_pos rfl]
  rw [List.dropWhile_cons, if_neg (by simp [hws])]
  dsimp only
  rw [if_neg hne]

/-- `parseVal` at a non-empty array defers to the item parse. -/
theorem parseVal_arr_step (f : Nat) (c2 : Char) (cs2 : List Char)
    (hws : jsonWsChar c2 = false) (hne : ¬ c2 = ']') :
    parseVal (f + 1) ('[' :: c2 :: cs2) = parseItems f (c2 :: cs2) [] := by
  rw [parseVal.eq_def]
  dsimp only
  rw [List.dropWhile_cons, if_neg (by decide : ¬ jsonWsChar '[' = true)]
  dsimp only
  rw [if_neg (by decide : ¬ ('[' : Char) = lbrace), if_pos rfl]
  rw [List.dropWhile_cons, if_neg (by simp [hws])]
  dsimp only
  rw [if_neg hne]

/-- `parseVal` at any other head defers to the number parse. -/
theorem parseVal_number (f : Nat) (c : Char) (cs : List Char)
    (hws : jsonWsChar c = false) (h1 : ¬ c = lbrace) (h2 : ¬ c = '[')
    (h3 : ¬ c = '"') (h4 : ¬ c = 't') (h5 : ¬ c = 'f') (h6 : ¬ c = 'n') :
    parseVal (f + 1) (c :: cs) = parseNumber (c :: cs) := by
  rw [parseVal.eq_def]
  dsimp only
  rw [List.dropWhile_cons, if_neg (by simp [hws])]
  dsimp only
  rw [if_neg h1, if_neg h2, if_neg h3, if_neg h4, if_neg h5, if_neg h6]


/-- Combined round-trip: with fuel at least the serialized length, the parser
inverts the serializer on canonical values, and the field and item parsers
invert the member and item serializations. -/
theorem parse_dumps_all (fuel : Nat) :
    (∀ (v : JVal) (tail : List Char), canonicalV v = true → numSafe v tail →
      (dumpsV v).length ≤ fuel →
      parseVal fuel (dumpsV v ++ tail) = some (v, tail)) ∧
    (∀ (k : String) (v : JVal) (fs acc : JObj) (tail : List Char),
      canonicalFields (acc ++ (k, v) :: fs) = true →
      (membersSer ((k, v) :: fs)).length + 1 ≤ fuel →
      parseFields fuel (membersSer ((k, v) :: fs) ++ rbrace :: tail) acc
        = some (.obj (acc ++ (k, v) :: fs), tail)) ∧
    (∀ (x : JVal) (xs : List JVal) (ac : List JVal) (tail : List Char),
      canonicalList (x :: xs) = true →
      (itemsSer (x :: xs)).length + 1 ≤ fuel →
      parseItems fuel (itemsSer (x :: xs) ++ ']' :: tail) ac
        = some (.arr (ac ++ x :: xs), tail)) := by
  induction fuel using Nat.strong_induction_on with
  | _ fuel ih =>
    refine ⟨?_, ?_, ?_⟩
    · intro v tail hcan hsafe hlen
      cases v with
      | null =>
        have h4 : (dumpsV JVal.null).length = 4 := rfl
        obtain ⟨f, rfl⟩ : ∃ f, fuel = f + 1 := ⟨fuel - 1, by omega⟩
        exact parseVal_null f tail
      | bool b =>
        cases b with
        | true =>
          have h4 : (dumpsV (JVal.bool true)).length = 4 := rfl
          obtain ⟨f, rfl⟩ : ∃ f, fuel = f + 1 := ⟨fuel - 1, by omega⟩
          exact parseVal_true f tail
        | false =>
          have h5 : (dumpsV (JVal.bool false)).length = 5 := rfl
          obtain ⟨f, rfl⟩ : ∃ f, fuel = f + 1 := ⟨fuel - 1, by omega⟩
          exact parseVal_false f tail
      | num n =>
        have hpos : 1 ≤ (dumpsV (JVal.num n)).length := by
          obtain ⟨c, cs, hc, -, -, -⟩ := dumpsV_head (JVal.num n)
          rw [hc]
          simp
        obtain ⟨f, rfl⟩ : ∃ f, fuel = f + 1 := ⟨fuel - 1, by omega⟩
        have hrest : ∀ c t, tail = c :: t →
            c.isDigit = false ∧ c ≠ '.' ∧ c ≠ 'e' ∧ c ≠ 'E' := by
          intro c t he
          rw [he] at hsafe
          exact hsafe
        cases n with
        | ofNat m =>
          obtain ⟨hne, hdig, -, -⟩ := natChars_spec m
          cases hds : natChars m with
          | nil => exact absurd hds hne
          | cons d t =>
            have hd : d.isDigit = true := hdig d (hds ▸ List.mem_cons_self d t)
            obtain ⟨hws, h1, h2, h3, h4, h5, h6, -, -⟩ := digit_head_facts d hd
            have hsplit : dumpsV (JVal.num (Int.ofNat m)) ++ tail = d :: (t ++ tail) := by
              show natChars m ++ tail = _
              rw [hds]
              exact List.cons_append d t tail
            rw [hsplit, parseVal_number f d (t ++ tail) hws h1 h2 h3 h4 h5 h6, ← hsplit]
            exact parseNumber_intChars (Int.ofNat m) tail hrest
        | negSucc m =>
          have hsplit : dumpsV (JVal.num (Int.negSucc m)) ++ tail
              = '-' :: (natChars (m + 1) ++ tail) := rfl
          rw [hsplit, parseVal_number f '-' (natChars (m + 1) ++ tail) (by decide)
            (by decide) (by decide) (by decide) (by decide) (by decide) (by decide),
            ← hsplit]
          exact parseNumber_intChars (Int.negSucc m) tail hrest
      | str s =>
        have hsl : (dumpsV (JVal.str s)).length = (escapeList s.data).length + 2 := by
          show ('"' :: escapeList s.data ++ ['"']).length = _
          simp
        obtain ⟨f, rfl⟩ : ∃ f, fuel = f + 1 := ⟨fuel - 1, by omega⟩
        have hsplit : dumpsV (JVal.str s) ++ tail
            = '"' :: (escapeList s.data ++ '"' :: tail) := by
          show ('"' :: escapeList s.data ++ ['"']) ++ tail = _
          simp
        rw [hsplit, parseVal_quote f (escapeList s.data ++ '"' :: tail),
          parseStringBody_escape s.data ((escapeList s.data ++ '"' :: tail).length + 1)
            tail (by
              have h1 := escapeList_length_le s.data
              simp only [List.length_append, List.length_cons]
              omega)]
      | arr xs =>
        cases xs with
        | nil =>
          have h2 : (dumpsV (JVal.arr [])).length = 2 := rfl
          obtain ⟨f, rfl⟩ : ∃ f, fuel = f + 1 := ⟨fuel - 1, by omega⟩
          exact parseVal_empty_arr f tail
        | cons x xs =>
          have hlen2 : (dumpsV (JVal.arr (x :: xs))).length
              = (dumpsV x).length + (dumpsItems xs).length + 2 := by
            show ('[' :: ((dumpsV x ++ dumpsItems xs) ++ [']'])).length = _
            simp only [List.length_cons, List.length_append, List.length_nil]
          obtain ⟨f, rfl⟩ : ∃ f, fuel = f + 1 := ⟨fuel - 1, by omega⟩
          obtain ⟨c, cs, hc, hws, hbr, -⟩ := dumpsV_head x
          have hsplit : dumpsV (JVal.arr (x :: xs)) ++ tail
              = '[' :: (c :: (cs ++ (dumpsItems xs ++ ']' :: tail))) := by
            show ('[' :: ((dumpsV x ++ dumpsItems xs) ++ [']'])) ++ tail = _
            rw [hc]
            simp
          rw [hsplit, parseVal_arr_step f c (cs ++ (dumpsItems xs ++ ']' :: tail)) hws hbr]
          have hre : c :: (cs ++ (dumpsItems xs ++ ']' :: tail))
              = itemsSer (x :: xs) ++ ']' :: tail := by
            show _ = (dumpsV x ++ dumpsItems xs) ++ ']' :: tail
            rw [hc]
            simp
          rw [hre]
          have hits : (itemsSer (x :: xs)).length
              = (dumpsV x).length + (dumpsItems xs).length := by
            show (dumpsV x ++ dumpsItems xs).length = _
            simp
          exact (ih f (by omega)).2.2 x xs [] tail hcan (by omega)
      | obj fs =>
        cases fs with
        | nil =>
          have h2 : (dumpsV (JVal.obj [])).length = 2 := rfl
          obtain ⟨f, rfl⟩ : ∃ f, fuel = f + 1 := ⟨fuel - 1, by omega⟩
          exact parseVal_empty_obj f tail
        | cons kv fs =>
          obtain ⟨k, v⟩ := kv
          have hlen2 : (dumpsV (JVal.obj ((k, v) :: fs))).length
              = (membersSer ((k, v) :: fs)).length + 2 := by
            show (lbrace :: (membersSer ((k, v) :: fs) ++ [rbrace])).length = _
            simp
          obtain ⟨f, rfl⟩ : ∃ f, fuel = f + 1 := ⟨fuel - 1, by omega⟩
          have hsplit : dumpsV (JVal.obj ((k, v) :: fs)) ++ tail
              = lbrace :: '"' :: ((escapeList k.data ++ ['"', ':', ' ']
                  ++ dumpsV v ++ dumpsFields fs) ++ rbrace :: tail) := by
            show (lbrace :: (('"' :: escapeList k.data ++ ['"', ':', ' ']
              ++ dumpsV v ++ dumpsFields fs) ++ [rbrace])) ++ tail = _
            simp
          rw [hsplit, parseVal_obj_step f '"' ((escapeList k.data ++ ['"', ':', ' ']
            ++ dumpsV v ++ dumpsFields fs) ++ rbrace :: tail) (by decide) (by decide)]
          have hre : '"' :: ((escapeList k.data ++ ['"', ':', ' ']
              ++ dumpsV v ++ dumpsFields fs) ++ rbrace :: tail)
              = membersSer ((k, v) :: fs) ++ rbrace :: tail := by
            show _ = ('"' :: escapeList k.data ++ ['"', ':', ' ']
              ++ dumpsV v ++ dumpsFields fs) ++ rbrace :: tail
            simp
          rw [hre]
          exact (ih f (by omega)).2.1 k v fs [] tail hcan (by omega)
    · intro k v fs acc tail hcan hlen
      have hms : (membersSer ((k, v) :: fs)).length
          = (escapeList k.data).length + (dumpsV v).length
            + (dumpsFields fs).length + 4 := by
        show ('"' :: escapeList k.data ++ ['"', ':', ' ']
          ++ dumpsV v ++ dumpsFields fs).length = _
        simp only [List.length_cons, List.length_append, List.length_nil]
        omega
      obtain ⟨g2, rfl⟩ : ∃ g2, fuel = g2 + 2 := ⟨fuel - 2, by omega⟩
      have hin : membersSer ((k, v) :: fs) ++ rbrace :: tail
          = '"' :: (escapeList k.data ++ '"' :: (':' :: ' '
              :: (dumpsV v ++ (dumpsFields fs ++ rbrace :: tail)))) := by
        show ('"' :: escapeList k.data ++ ['"', ':', ' ']
          ++ dumpsV v ++ dumpsFields fs) ++ rbrace :: tail = _
        simp
      rw [hin, parseFields.eq_def]
      dsimp only
      rw [List.dropWhile_cons, if_neg (by decide : ¬ jsonWsChar '"' = true)]
      dsimp only
      rw [if_pos rfl]
      rw [parseStringBody_escape k.data
        ((escapeList k.data ++ '"' :: (':' :: ' '
          :: (dumpsV v ++ (dumpsFields fs ++ rbrace :: tail)))).length + 1)
        (':' :: ' ' :: (dumpsV v ++ (dumpsFields fs ++ rbrace :: tail)))
        (by
          have h1 := escapeList_length_le k.data
          simp only [List.length_append, List.length_cons]
          omega)]
      dsimp only
      rw [List.dropWhile_cons, if_neg (by decide : ¬ jsonWsChar ':' = true)]
      dsimp only
      rw [if_pos rfl]
      rw [parseVal_ws g2 ' ' (by decide) (dumpsV v ++ (dumpsFields fs ++ rbrace :: tail))]
      have hdrop := canonicalFields_drop acc ((k, v) :: fs) hcan
      have hdc : ((fs.all fun kv => !(kv.1 == k)) && canonicalV v
          && canonicalFields fs) = true := hdrop
      have hv : canonicalV v = true := Bool.and_elim_right (Bool.and_elim_left hdc)
      rw [(ih (g2 + 1) (by omega)).1 v (dumpsFields fs ++ rbrace :: tail) hv
        (numSafe_dumpsFields v fs tail) (by omega)]
      dsimp only
      have hfresh : ∀ a ∈ acc, (a.1 == k) = false := canonicalFields_fresh acc k v fs hcan
      rw [show objInsert acc (String.mk k.data) v = objInsert acc k v from rfl,
        objInsert_fresh acc k v hfresh]
      cases fs with
      | nil =>
        rw [show dumpsFields ([] : JObj) ++ rbrace :: tail = rbrace :: tail from rfl]
        rw [List.dropWhile_cons, if_neg (by decide : ¬ jsonWsChar rbrace = true)]
        dsimp only
        rw [if_neg (by decide : ¬ rbrace = ','), if_pos rfl]
      | cons kv2 fs2 =>
        obtain ⟨k2, v2⟩ := kv2
        rw [show dumpsFields ((k2, v2) :: fs2) ++ rbrace :: tail
            = ',' :: ' ' :: (membersSer ((k2, v2) :: fs2) ++ rbrace :: tail) from rfl]
        rw [List.dropWhile_cons, if_neg (by decide : ¬ jsonWsChar ',' = true)]
        dsimp only
        rw [if_pos rfl]
        rw [parseFields_ws g2 ' ' (by decide)
          (membersSer ((k2, v2) :: fs2) ++ rbrace :: tail) (acc ++ [(k, v)])]
        have hcan2 : canonicalFields ((acc ++ [(k, v)]) ++ (k2, v2) :: fs2) = true := by
          rw [List.append_assoc]
          exact hcan
        have hms2 : (dumpsFields ((k2, v2) :: fs2)).length
            = (membersSer ((k2, v2) :: fs2)).length + 2 := by
          show (',' :: ' ' :: membersSer ((k2, v2) :: fs2)).length = _
          simp only [List.length_cons]
        rw [(ih (g2 + 1) (by omega)).2.1 k2 v2 fs2 (acc ++ [(k, v)]) tail hcan2
          (by omega)]
        rw [List.append_assoc]
        rfl
    · intro x xs ac tail hcan hlen
      have hits : (itemsSer (x :: xs)).length
          = (dumpsV x).length + (dumpsItems xs).length := by
        show (dumpsV x ++ dumpsItems xs).length = _
        simp
      obtain ⟨g, rfl⟩ : ∃ g, fuel = g + 1 := ⟨fuel - 1, by omega⟩
      have hin : itemsSer (x :: xs) ++ ']' :: tail
          = dumpsV x ++ (dumpsItems xs ++ ']' :: tail) := by
        show (dumpsV x ++ dumpsItems xs) ++ ']' :: tail = _
        simp
      rw [hin, parseItems.eq_def]
      dsimp only
      have hcc : (canonicalV x && canonicalList xs) = true := hcan
      have hx : canonicalV x = true := Bool.and_elim_left hcc
      have hxs : canonicalList xs = true := Bool.and_elim_right hcc
      rw [(ih g (by omega)).1 x (dumpsItems xs ++ ']' :: tail) hx
        (numSafe_dumpsItems x xs tail) (by omega)]
      dsimp only
      cases xs with
      | nil =>
        rw [show dumpsItems ([] : List JVal) ++ ']' :: tail = ']' :: tail from rfl]
        rw [List.dropWhile_cons, if_neg (by decide : ¬ jsonWsChar ']' = true)]
        dsimp only
        rw [if_neg (by decide : ¬ (']' : Char) = ','), if_pos rfl]
      | cons x2 xs2 =>
        rw [show dumpsItems (x2 :: xs2) ++ ']' :: tail
            = ',' :: ' ' :: (itemsSer (x2 :: xs2) ++ ']' :: tail) from rfl]
        rw [List.dropWhile_cons, if_neg (by decide : ¬ jsonWsChar ',' = true)]
        dsimp only
        rw [if_pos rfl]
        have hdi : (dumpsItems (x2 :: xs2)).length
            = (dumpsV x2).length + (dumpsItems xs2).length + 2 := by
          show (',' :: ' ' :: (dumpsV x2 ++ dumpsItems xs2)).length = _
          simp only [List.length_cons, List.length_append]
        have hits2 : (itemsSer (x2 :: xs2)).length
            = (dumpsV x2).length + (dumpsItems xs2).length := by
          show (dumpsV x2 ++ dumpsItems xs2).length = _
          simp
        obtain ⟨g2, rfl⟩ : ∃ g2, g = g2 + 1 := ⟨g - 1, by omega⟩
        rw [parseItems_ws g2 ' ' (by decide) (itemsSer (x2 :: xs2) ++ ']' :: tail)
          (ac ++ [x])]
        rw [(ih (g2 + 1) (by omega)).2.2 x2 xs2 (ac ++ [x]) tail hxs (by omega)]
        rw [List.append_assoc]
        rfl


/-- `json.loads` inverts `json.dumps` on canonical values. -/
theorem loads_dumpsV (v : JVal) (hcan : canonicalV v = true) :
    loads (dumpsV v) = some v := by
  unfold loads
  have h := (parse_dumps_all (2 * (dumpsV v).length + 2)).1 v [] hcan
    (by cases v <;> trivial) (by omega)
  rw [List.append_nil] at h
  rw [h]
  rfl

/-- The serialization of an object is an open brace, a middle, and a close
brace. -/
theorem dumpsV_obj_shape (fs : JObj) :
    ∃ m, dumpsV (.obj fs) = lbrace :: (m ++ [rbrace]) := by
  cases fs with
  | nil => exact ⟨[], rfl⟩
  | cons kv fs =>
    obtain ⟨k, v⟩ := kv
    exact ⟨'"' :: escapeList k.data ++ ['"', ':', ' '] ++ dumpsV v ++ dumpsFields fs, rfl⟩

/-- Strip is the identity on a list with non-whitespace first and last
characters. -/
theorem stripList_id (c d : Char) (m : List Char)
    (hc : pyWs c = false) (hd : pyWs d = false) :
    stripList (c :: (m ++ [d])) = c :: (m ++ [d]) := by
  unfold stripList trimLeftBy trimRightBy
  rw [List.dropWhile_cons, if_neg (by simp [hc])]
  have hrev : (c :: (m ++ [d])).reverse = d :: (m.reverse ++ [c]) := by simp
  rw [hrev, List.dropWhile_cons, if_neg (by simp [hd]), ← hrev, List.reverse_reverse]

/-- Replacement is the identity when the pattern occurs nowhere. -/
theorem replaceGo_id (pat rep : List Char) :
    ∀ fuel l, ¬ List.IsInfix pat l → replaceGo pat rep fuel l = l := by
  intro fuel
  induction fuel with
  | zero => intro l h; rfl
  | succ f ih =>
    intro l h
    cases l with
    | nil => rfl
    | cons c cs =>
      unfold replaceGo
      rw [if_neg (fun hp => h (List.isPrefixOf_iff_prefix.mp hp).isInfix),
        ih cs (fun hi => h (List.infix_cons hi))]

/-- `str.replace` is the identity when the pattern occurs nowhere. -/
theorem replaceList_id (pat rep l : List Char) (h : ¬ List.IsInfix pat l) :
    replaceList pat rep l = l := replaceGo_id pat rep l.length l h

/-- The bare fence is not a prefix of a text opening with a brace. -/
theorem fenceRep_not_prefix_brace (t : List Char) :
    fenceRep.isPrefixOf (lbrace :: t) = false := rfl

/-- C3: the serialize-then-extract round trip.  It holds for canonical
mappings (distinct keys, as any Python `dict` has) whose serialization does
not contain the fence tag; the refinement below shows the tag-in-payload
exception is real. -/
theorem extract_serialize_roundtrip (fs : JObj)
    (hcan : canonicalFields fs = true)
    (hninf : ¬ List.IsInfix fencePat (dumpsV (.obj fs))) :
    extractJsonDict (String.mk (dumpsV (.obj fs))) = .ok fs := by
  obtain ⟨m, hm⟩ := dumpsV_obj_shape fs
  have hstrip : stripList (dumpsV (.obj fs)) = dumpsV (.obj fs) := by
    rw [hm]
    exact stripList_id lbrace rbrace m (by decide) (by decide)
  have hrepl : replaceList fencePat fenceRep (dumpsV (.obj fs)) = dumpsV (.obj fs) :=
    replaceList_id fencePat fenceRep _ hninf
  have hclean : cleanedText (String.mk (dumpsV (.obj fs))) = dumpsV (.obj fs) := by
    simp only [cleanedText]
    rw [hstrip, hrepl, hm,
      if_neg (by rw [fenceRep_not_prefix_brace]; exact Bool.false_ne_true)]
  simp only [extractJsonDict]
  rw [hclean, loads_dumpsV (.obj fs) hcan]

/-- C3 counterexample: a mapping whose string value contains the fence tag is
mangled by the extractor: the round trip returns a different mapping. -/
theorem extract_roundtrip_counterexample :
    extractJsonDict (String.mk (dumpsV (.obj [("a", .str "```json")])))
        = .ok [("a", JVal.str "```")] ∧
      [("a", JVal.str "```")] ≠ [("a", JVal.str "```json")] :=
  ⟨rfl, by decide⟩

/-- C3 witness: the round trip at a concrete two-field mapping. -/
theorem extract_serialize_roundtrip_witness :
    canonicalFields [("a", JVal.num 1), ("b", JVal.str "x")] = true ∧
    ¬ List.IsInfix fencePat (dumpsV (.obj [("a", JVal.num 1), ("b", JVal.str "x")])) ∧
    extractJsonDict (String.mk (dumpsV (.obj [("a", JVal.num 1), ("b", JVal.str "x")])))
      = .ok [("a", JVal.num 1), ("b", JVal.str "x")] :=
  ⟨by decide, by decide, extract_serialize_roundtrip _ (by decide) (by decide)⟩


/-- Unfolding of the net brace count at a cons. -/
theorem netBraces_cons (c : Char) (l : List Char) :
    netBraces (c :: l)
      = (if c = lbrace then (1 : Int) else if c = rbrace then -1 else 0)
        + netBraces l := rfl

/-- Net braces across an opening brace. -/
theorem netBraces_lbrace (l : List Char) :
    netBraces (lbrace :: l) = 1 + netBraces l := by
  rw [netBraces_cons, if_pos rfl]

/-- Net braces across a closing brace. -/
theorem netBraces_rbrace (l : List Char) :
    netBraces (rbrace :: l) = -1 + netBraces l := by
  rw [netBraces_cons, if_neg (by decide), if_pos rfl]

/-- Net braces across a non-brace character. -/
theorem netBraces_flat (c : Char) (l : List Char)
    (h1 : ¬ c = lbrace) (h2 : ¬ c = rbrace) :
    netBraces (c :: l) = netBraces l := by
  rw [netBraces_cons, if_neg h1, if_neg h2]
  omega

/-- Net braces add across concatenation. -/
theorem netBraces_append (a b : List Char) :
    netBraces (a ++ b) = netBraces a + netBraces b := by
  induction a with
  | nil => simp [netBraces]
  | cons c a ih =>
    rw [List.cons_append, netBraces_cons, ih, netBraces_cons]
    omega

/-- A brace-free list has zero net braces. -/
theorem noBracesB_netBraces (l : List Char) (h : noBracesB l = true) :
    netBraces l = 0 := by
  induction l with
  | nil => rfl
  | cons c cs ih =>
    have hc := List.all_eq_true.mp h c (List.mem_cons_self c cs)
    simp only [Bool.and_eq_true, Bool.not_eq_true', beq_eq_false_iff_ne, ne_eq] at hc
    rw [netBraces_flat c cs hc.1 hc.2]
    exact ih (List.all_eq_true.mpr fun x hx =>
      List.all_eq_true.mp h x (List.mem_cons_of_mem c hx))

/-- The empty list is a balanced segment. -/
theorem seg_nil : Seg [] :=
  ⟨rfl, fun q hq => by rw [List.prefix_nil.mp hq]; exact le_refl 0⟩

/-- A brace-free list is a balanced segment. -/
theorem seg_of_noBracesB (l : List Char) (h : noBracesB l = true) : Seg l := by
  refine ⟨noBracesB_netBraces l h, fun q hq => ?_⟩
  rw [noBracesB_netBraces q (List.all_eq_true.mpr fun x hx =>
    List.all_eq_true.mp h x (hq.subset hx))]

/-- Balanced segments concatenate. -/
theorem seg_append (a b : List Char) (ha : Seg a) (hb : Seg b) : Seg (a ++ b) := by
  refine ⟨by rw [netBraces_append, ha.1, hb.1]; omega, fun q hq => ?_⟩
  obtain ⟨t, ht⟩ := hq
  rcases List.append_eq_append_iff.mp ht with ⟨a2, ha2, -⟩ | ⟨c2, hc2, hc3⟩
  · exact ha.2 q ⟨a2, ha2.symm⟩
  · rw [hc2, netBraces_append, ha.1]
    have := hb.2 c2 ⟨t, hc3.symm⟩
    omega

/-- A non-brace character in front preserves balance. -/
theorem seg_cons_flat (c : Char) (l : List Char)
    (h1 : ¬ c = lbrace) (h2 : ¬ c = rbrace) (hl : Seg l) : Seg (c :: l) := by
  refine ⟨by rw [netBraces_flat c l h1 h2, hl.1], fun q hq => ?_⟩
  cases q with
  | nil => exact le_refl 0
  | cons c2 q =>
    obtain ⟨he, hq2⟩ := List.cons_prefix_cons.mp hq
    rw [he, netBraces_flat c q h1 h2]
    exact hl.2 q hq2

/-- Wrapping a balanced segment in braces yields a balanced segment. -/
theorem seg_wrap (m : List Char) (hm : Seg m) : Seg (lbrace :: (m ++ [rbrace])) := by
  refine ⟨?_, fun q hq => ?_⟩
  · rw [netBraces_lbrace, netBraces_append, hm.1,
      show netBraces [rbrace] = -1 from by decide]
    omega
  · cases q with
    | nil => exact le_refl 0
    | cons c2 q =>
      obtain ⟨he, hq2⟩ := List.cons_prefix_cons.mp hq
      subst he
      rw [netBraces_lbrace]
      obtain ⟨t, ht⟩ := hq2
      rcases List.append_eq_append_iff.mp ht with ⟨a2, ha2, -⟩ | ⟨c3, hc3, hc4⟩
      · have := hm.2 q ⟨a2, ha2.symm⟩
        omega
      · cases c3 with
        | nil =>
          rw [hc3, List.append_nil, hm.1]
          omega
        | cons c4 q4 =>
          obtain ⟨he4, hq4⟩ := List.cons_prefix_cons.mp ⟨t, hc4.symm⟩
          subst he4
          rw [List.prefix_nil.mp hq4] at hc3
          rw [hc3, netBraces_append, hm.1,
            show netBraces [rbrace] = -1 from by decide]
          omega

/-- A hex digit character is not a brace. -/
theorem hexDigitChar_not_brace (d : Nat) (hd : d < 16) :
    ((hexDigitChar d == lbrace) = false) ∧ ((hexDigitChar d == rbrace) = false) := by
  interval_cases d <;> exact ⟨by decide, by decide⟩

/-- Escaping a non-brace character emits no braces. -/
theorem noBracesB_escapeChar (c : Char)
    (h1 : (c == lbrace) = false) (h2 : (c == rbrace) = false) :
    noBracesB (escapeChar c) = true := by
  unfold noBracesB escapeChar
  split_ifs with g1 g2 g3 g4 g5 g6 g7 g8
  · decide
  · decide
  · decide
  · decide
  · decide
  · decide
  · decide
  · have ha := hexDigitChar_not_brace (c.toNat / 16) (by omega)
    have hb := hexDigitChar_not_brace (c.toNat % 16) (by omega)
    simp [List.all_cons, ha.1, ha.2, hb.1, hb.2]
    decide
  · simp [List.all_cons, h1, h2]

/-- Escaping a brace-free string emits no braces. -/
theorem noBracesB_escapeList (l : List Char)
    (h : l.all (fun c => !(c == lbrace) && !(c == rbrace)) = true) :
    noBracesB (escapeList l) = true := by
  induction l with
  | nil => rfl
  | cons c cs ih =>
    have hc := List.all_eq_true.mp h c (List.mem_cons_self c cs)
    simp only [Bool.and_eq_true, Bool.not_eq_true'] at hc
    have hcs : cs.all (fun c => !(c == lbrace) && !(c == rbrace)) = true :=
      List.all_eq_true.mpr fun x hx => List.all_eq_true.mp h x (List.mem_cons_of_mem c hx)
    show noBracesB (escapeChar c ++ escapeList cs) = true
    unfold noBracesB
    rw [List.all_append]
    have h1 := noBracesB_escapeChar c hc.1 hc.2
    have h2 := ih hcs
    unfold noBracesB at h1 h2
    rw [h1, h2]
    rfl

/-- A brace-free list, as a segment fact, for digit strings. -/
theorem noBracesB_natChars (m : Nat) : noBracesB (natChars m) = true := by
  obtain ⟨-, hdig, -, -⟩ := natChars_spec m
  unfold noBracesB
  exact List.all_eq_true.mpr fun c hc => by
    obtain ⟨-, -, -, -, -, -, -, -, h9⟩ := digit_head_facts c (hdig c hc)
    obtain ⟨-, h2, -, -, -, -, -, -, -⟩ := digit_head_facts c (hdig c hc)
    simp [h2, h9]


/-- For brace-clean values the serialization is balanced: net braces zero
and no prefix dips below zero, so the extractor's depth scan counts exactly
the structural object braces. -/
theorem brace_balance (N : Nat) :
    (∀ v : JVal, (dumpsV v).length ≤ N → braceCleanV v = true → Seg (dumpsV v)) ∧
    (∀ fs : JObj, (dumpsFields fs).length ≤ N → braceCleanFields fs = true →
      Seg (dumpsFields fs)) ∧
    (∀ xs : List JVal, (dumpsItems xs).length ≤ N → braceCleanList xs = true →
      Seg (dumpsItems xs)) := by
  induction N using Nat.strong_induction_on with
  | _ N ih =>
    refine ⟨?_, ?_, ?_⟩
    · intro v hlen hbc
      cases v with
      | null => exact seg_of_noBracesB _ (by decide)
      | bool b =>
        cases b with
        | true => exact seg_of_noBracesB _ (by decide)
        | false => exact seg_of_noBracesB _ (by decide)
      | num n =>
        cases n with
        | ofNat m => exact seg_of_noBracesB _ (noBracesB_natChars m)
        | negSucc m =>
          exact seg_cons_flat '-' _ (by decide) (by decide)
            (seg_of_noBracesB _ (noBracesB_natChars (m + 1)))
      | str s =>
        have hs : s.data.all (fun c => !(c == lbrace) && !(c == rbrace)) = true := hbc
        exact seg_cons_flat '"' _ (by decide) (by decide)
          (seg_append _ _ (seg_of_noBracesB _ (noBracesB_escapeList s.data hs))
            (seg_of_noBracesB _ (by decide)))
      | arr xs =>
        cases xs with
        | nil => exact seg_of_noBracesB _ (by decide)
        | cons x xs =>
          have hcc : (braceCleanV x && braceCleanList xs) = true := hbc
          have hlen2 : (dumpsV (JVal.arr (x :: xs))).length
              = (dumpsV x).length + (dumpsItems xs).length + 2 := by
            show ('[' :: ((dumpsV x ++ dumpsItems xs) ++ [']'])).length = _
            simp only [List.length_cons, List.length_append, List.length_nil]
          exact seg_cons_flat '[' _ (by decide) (by decide)
            (seg_append _ _
              (seg_append _ _
                ((ih (N - 1) (by omega)).1 x (by omega) (Bool.and_elim_left hcc))
                ((ih (N - 1) (by omega)).2.2 xs (by omega) (Bool.and_elim_right hcc)))
              (seg_of_noBracesB _ (by decide)))
      | obj fs =>
        cases fs with
        | nil => exact seg_wrap [] seg_nil
        | cons kv fs =>
          obtain ⟨k, v⟩ := kv
          have hb3 : (k.data.all (fun c => !(c == lbrace) && !(c == rbrace))
              && braceCleanV v && braceCleanFields fs) = true := hbc
          have hk := Bool.and_elim_left (Bool.and_elim_left hb3)
          have hv := Bool.and_elim_right (Bool.and_elim_left hb3)
          have hf := Bool.and_elim_right hb3
          have hlen2 : (dumpsV (JVal.obj ((k, v) :: fs))).length
              = (escapeList k.data).length + (dumpsV v).length
                + (dumpsFields fs).length + 6 := by
            show (lbrace :: (('"' :: escapeList k.data ++ ['"', ':', ' ']
              ++ dumpsV v ++ dumpsFields fs) ++ [rbrace])).length = _
            simp only [List.length_cons, List.length_append, List.length_nil]
            omega
          exact seg_wrap _ (seg_cons_flat '"' _ (by decide) (by decide)
            (seg_append _ _
              (seg_append _ _
                (seg_append _ _
                  (seg_of_noBracesB _ (noBracesB_escapeList k.data hk))
                  (seg_of_noBracesB _ (by decide)))
                ((ih (N - 1) (by omega)).1 v (by omega) hv))
              ((ih (N - 1) (by omega)).2.1 fs (by omega) hf)))
    · intro fs hlen hbc
      cases fs with
      | nil => exact seg_nil
      | cons kv fs =>
        obtain ⟨k, v⟩ := kv
        have hb3 : (k.data.all (fun c => !(c == lbrace) && !(c == rbrace))
            && braceCleanV v && braceCleanFields fs) = true := hbc
        have hk := Bool.and_elim_left (Bool.and_elim_left hb3)
        have hv := Bool.and_elim_right (Bool.and_elim_left hb3)
        have hf := Bool.and_elim_right hb3
        have hlen2 : (dumpsFields ((k, v) :: fs)).length
            = (escapeList k.data).length + (dumpsV v).length
              + (dumpsFields fs).length + 6 := by
          show (',' :: ' ' :: '"' :: escapeList k.data ++ ['"', ':', ' ']
            ++ dumpsV v ++ dumpsFields fs).length = _
          simp only [List.length_cons, List.length_append, List.length_nil]
          omega
        exact seg_cons_flat ',' _ (by decide) (by decide)
          (seg_cons_flat ' ' _ (by decide) (by decide)
            (seg_cons_flat '"' _ (by decide) (by decide)
              (seg_append _ _
                (seg_append _ _
                  (seg_append _ _
                    (seg_of_noBracesB _ (noBracesB_escapeList k.data hk))
                    (seg_of_noBracesB _ (by decide)))
                  ((ih (N - 1) (by omega)).1 v (by omega) hv))
                ((ih (N - 1) (by omega)).2.1 fs (by omega) hf))))
    · intro xs hlen hbc
      cases xs with
      | nil => exact seg_nil
      | cons x xs =>
        have hcc : (braceCleanV x && braceCleanList xs) = true := hbc
        have hlen2 : (dumpsItems (x :: xs)).length
            = (dumpsV x).length + (dumpsItems xs).length + 2 := by
          show (',' :: ' ' :: dumpsV x ++ dumpsItems xs).length = _
          simp only [List.length_cons, List.length_append, List.length_nil]
          omega
        exact seg_cons_flat ',' _ (by decide) (by decide)
          (seg_cons_flat ' ' _ (by decide) (by decide)
            (seg_append _ _
              ((ih (N - 1) (by omega)).1 x (by omega) (Bool.and_elim_left hcc))
              ((ih (N - 1) (by omega)).2.2 xs (by omega) (Bool.and_elim_right hcc))))

/-- The serialization of a brace-clean object is a brace-wrapped balanced
middle. -/
theorem dumpsV_obj_shape_seg (fs : JObj) (hbc : braceCleanFields fs = true) :
    ∃ m, dumpsV (.obj fs) = lbrace :: (m ++ [rbrace]) ∧ Seg m := by
  cases fs with
  | nil => exact ⟨[], rfl, seg_nil⟩
  | cons kv fs =>
    obtain ⟨k, v⟩ := kv
    have hb3 : (k.data.all (fun c => !(c == lbrace) && !(c == rbrace))
        && braceCleanV v && braceCleanFields fs) = true := hbc
    have hk := Bool.and_elim_left (Bool.and_elim_left hb3)
    have hv := Bool.and_elim_right (Bool.and_elim_left hb3)
    have hf := Bool.and_elim_right hb3
    refine ⟨'"' :: escapeList k.data ++ ['"', ':', ' '] ++ dumpsV v ++ dumpsFields fs,
      rfl, ?_⟩
    exact seg_cons_flat '"' _ (by decide) (by decide)
      (seg_append _ _
        (seg_append _ _
          (seg_append _ _
            (seg_of_noBracesB _ (noBracesB_escapeList k.data hk))
            (seg_of_noBracesB _ (by decide)))
          ((brace_balance (dumpsV v).length).1 v (le_refl _) hv))
        ((brace_balance (dumpsFields fs).length).2.1 fs (le_refl _) hf))


/-- The depth scan walks through a stretch that never returns the depth to
zero at a closing brace, accumulating the net brace count and the position. -/
theorem innerScanGo_through (s : List Char) (w : List Char) :
    ∀ (rest : List Char) (depth : Int) (n : Nat),
    (∀ q, List.IsPrefix (q ++ [rbrace]) w → depth + netBraces (q ++ [rbrace]) ≠ 0) →
    innerScanGo s (w ++ rest) depth n
      = innerScanGo s rest (depth + netBraces w) (n + w.length) := by
  induction w with
  | nil =>
    intro rest depth n h
    simp [netBraces]
  | cons c w ihw =>
    intro rest depth n h
    rw [show (c :: w) ++ rest = c :: (w ++ rest) from rfl]
    rw [innerScanGo.eq_def]
    dsimp only
    by_cases h1 : c = lbrace
    · subst h1
      rw [if_pos rfl]
      rw [netBraces_lbrace, List.length_cons,
        show depth + (1 + netBraces w) = depth + 1 + netBraces w from by omega,
        show n + (w.length + 1) = n + 1 + w.length from by omega]
      exact ihw rest (depth + 1) (n + 1) (fun q hq h0 =>
        h (lbrace :: q)
          (by rw [List.cons_append]; exact List.cons_prefix_cons.mpr ⟨rfl, hq⟩)
          (by rw [List.cons_append, netBraces_lbrace]; omega))
    · by_cases h2 : c = rbrace
      · subst h2
        rw [if_neg (by decide), if_pos rfl]
        rw [if_neg (fun h0 => h []
          (⟨w, rfl⟩ : List.IsPrefix ([] ++ [rbrace]) (rbrace :: w))
          (by rw [show netBraces ([] ++ [rbrace]) = -1 from by decide]; omega))]
        rw [netBraces_rbrace, List.length_cons,
          show depth + (-1 + netBraces w) = depth - 1 + netBraces w from by omega,
          show n + (w.length + 1) = n + 1 + w.length from by omega]
        exact ihw rest (depth - 1) (n + 1) (fun q hq h0 =>
          h (rbrace :: q)
            (by rw [List.cons_append]; exact List.cons_prefix_cons.mpr ⟨rfl, hq⟩)
            (by rw [List.cons_append, netBraces_rbrace]; omega))
      · rw [if_neg h1, if_neg h2]
        rw [netBraces_flat c w h1 h2, List.length_cons,
          show n + (w.length + 1) = n + 1 + w.length from by omega]
        exact ihw rest depth (n + 1) (fun q hq h0 =>
          h (c :: q)
            (by rw [List.cons_append]; exact List.cons_prefix_cons.mpr ⟨rfl, hq⟩)
            (by rw [List.cons_append, netBraces_flat c _ h1 h2]; omega))

/-- From a candidate start at the opening brace of a balanced serialized
object, the scan closes exactly at the matching brace and parses the
serialization. -/
theorem innerScan_at (m s : List Char) (fs : JObj)
    (hm : Seg m)
    (hl : loads (lbrace :: (m ++ [rbrace])) = some (.obj fs)) :
    innerScanGo (lbrace :: ((m ++ [rbrace]) ++ s)) (lbrace :: ((m ++ [rbrace]) ++ s)) 0 0
      = some fs := by
  rw [show (m ++ [rbrace]) ++ s = m ++ (rbrace :: s) from by simp]
  rw [innerScanGo.eq_def]
  dsimp only
  rw [if_pos rfl]
  rw [innerScanGo_through (lbrace :: (m ++ rbrace :: s)) m (rbrace :: s)
    (0 + 1) (0 + 1) (fun q hq h0 => by
      have hge := hm.2 (q ++ [rbrace]) hq
      rw [netBraces_append, show netBraces [rbrace] = -1 from by decide] at hge h0
      omega)]
  rw [hm.1, show (0 : Int) + 1 + 0 = 1 from by omega,
    show 0 + 1 + m.length = m.length + 1 from by omega]
  rw [innerScanGo.eq_def]
  dsimp only
  rw [if_neg (by decide), if_pos rfl]
  rw [if_pos (show (1 : Int) - 1 = 0 from by omega)]
  rw [show lbrace :: (m ++ rbrace :: s) = (lbrace :: (m ++ [rbrace])) ++ s from by simp]
  rw [show m.length + 1 + 1 = (lbrace :: (m ++ [rbrace])).length from by simp,
    List.take_left, hl]


/-- A drop-while whose predicate fails at the head changes nothing. -/
theorem dropWhile_id_of (p : Char → Bool) (l : List Char)
    (h : ∀ c, l.head? = some c → p c = false) : l.dropWhile p = l := by
  cases l with
  | nil => rfl
  | cons c t => rw [List.dropWhile_cons, if_neg (by simp [h c rfl])]

/-- Strip is the identity when first and last characters are not Python
whitespace. -/
theorem stripList_id_of (l : List Char)
    (h1 : ∀ c, l.head? = some c → pyWs c = false)
    (h2 : ∀ c, l.getLast? = some c → pyWs c = false) : stripList l = l := by
  unfold stripList trimLeftBy trimRightBy
  rw [dropWhile_id_of pyWs l h1, dropWhile_id_of pyWs l.reverse (fun c hc =>
    h2 c (by rw [← List.head?_reverse]; exact hc)), List.reverse_reverse]

/-- JSON whitespace is Python whitespace. -/
theorem jsonWs_pyWs (c : Char) (h : pyWs c = false) : jsonWsChar c = false := by
  cases hcj : jsonWsChar c with
  | false => rfl
  | true =>
    exfalso
    unfold jsonWsChar at hcj
    simp only [Bool.or_eq_true, beq_iff_eq] at hcj
    rcases hcj with ((h1 | h1) | h1) | h1 <;> subst h1 <;> exact absurd h (by decide)

/-- A parse yielding an object starts, after whitespace, with an opening
brace. -/
theorem loads_obj_head (l : List Char) (fs : JObj) (h : loads l = some (.obj fs)) :
    ∃ cs, l.dropWhile jsonWsChar = lbrace :: cs := by
  unfold loads at h
  split at h
  · rename_i v rest heq
    split at h
    · exact parseVal_obj_head _ _ _ _ (by rw [heq, Option.some.inj h])
    · exact absurd h (by simp)
  · exact absurd h (by simp)

/-- Brace positions skip over a brace-free prefix. -/
theorem bracePosGo_append_free : ∀ (p rest : List Char) (i : Nat),
    (∀ c ∈ p, ¬ c = lbrace) →
    bracePosGo (p ++ rest) i = bracePosGo rest (i + p.length) := by
  intro p
  induction p with
  | nil => intro rest i hp; simp
  | cons c p ih =>
    intro rest i hp
    rw [show (c :: p) ++ rest = c :: (p ++ rest) from rfl]
    rw [bracePosGo.eq_def]
    dsimp only
    rw [if_neg (hp c (List.mem_cons_self c p))]
    rw [ih rest (i + 1) (fun x hx => hp x (List.mem_cons_of_mem c hx))]
    rw [List.length_cons, show i + (p.length + 1) = i + 1 + p.length from by omega]

/-- The bare fence is not a prefix of a text opening with any character
other than a backtick. -/
theorem fenceRep_not_prefix (c0 : Char) (h : ¬ c0 = btick) (t : List Char) :
    fenceRep.isPrefixOf (c0 :: t) = false := by
  have hb : (btick == c0) = false :=
    beq_eq_false_iff_ne.mpr (fun he => h he.symm)
  show (btick == c0 && List.isPrefixOf [btick, btick] t) = false
  rw [hb, Bool.false_and]

/-- Replacing when the text opens with the pattern and the pattern occurs
nowhere later. -/
theorem replaceList_prefix (rest : List Char)
    (h : ¬ List.IsInfix fencePat rest) :
    replaceList fencePat fenceRep (fencePat ++ rest) = fenceRep ++ rest := by
  have hfp : fencePat = btick :: "``json".data := by decide
  unfold replaceList
  have h7 : (fencePat ++ rest).length = rest.length + 7 := by
    rw [List.length_append, show fencePat.length = 7 from by decide]
    omega
  obtain ⟨F, hF⟩ : ∃ F, (fencePat ++ rest).length = F + 1 :=
    ⟨rest.length + 6, by omega⟩
  rw [hF]
  rw [show fencePat ++ rest = btick :: ("``json".data ++ rest) from by
    rw [hfp, List.cons_append]]
  rw [replaceGo.eq_def]
  dsimp only
  rw [if_pos (List.isPrefixOf_iff_prefix.mpr ⟨rest, by rw [hfp, List.cons_append]⟩)]
  rw [show (btick :: ("``json".data ++ rest)).drop fencePat.length = rest from by
    rw [← List.cons_append, ← hfp, List.drop_left]]
  rw [replaceGo_id fencePat fenceRep F rest h]

/-- Strip of a value wrapped in single whitespace characters. -/
theorem stripList_wrap (a b c d : Char) (mm : List Char)
    (ha : pyWs a = true) (hb : pyWs b = true)
    (hc : pyWs c = false) (hd : pyWs d = false) :
    stripList (a :: ((c :: (mm ++ [d])) ++ [b])) = c :: (mm ++ [d]) := by
  unfold stripList trimLeftBy trimRightBy
  rw [List.dropWhile_cons, if_pos ha]
  rw [show (c :: (mm ++ [d])) ++ [b] = c :: ((mm ++ [d]) ++ [b]) from rfl]
  rw [List.dropWhile_cons, if_neg (by simp [hc])]
  have h1 : (c :: ((mm ++ [d]) ++ [b])).reverse = b :: (d :: (mm.reverse ++ [c])) := by
    simp
  rw [h1, List.dropWhile_cons, if_pos hb, List.dropWhile_cons, if_neg (by simp [hd])]
  simp


/-- Embedded extraction: a brace-clean canonical mapping serialized inside
prose is recovered, provided the prose before it contains no opening brace,
does not begin with whitespace or a backtick, the whole text does not end in
whitespace, and the fence tag occurs nowhere. -/
theorem extract_embedded_prose (fs : JObj) (c0 : Char) (p s : List Char)
    (hcan : canonicalFields fs = true) (hbc : braceCleanFields fs = true)
    (hpw : pyWs c0 = false) (htick : ¬ c0 = btick)
    (hpl : ∀ c ∈ c0 :: p, ¬ c = lbrace)
    (hlast : ∀ c, ((c0 :: p) ++ (dumpsV (.obj fs) ++ s)).getLast? = some c →
      pyWs c = false)
    (hfence : ¬ List.IsInfix fencePat ((c0 :: p) ++ (dumpsV (.obj fs) ++ s))) :
    extractJsonDict (String.mk ((c0 :: p) ++ (dumpsV (.obj fs) ++ s))) = .ok fs := by
  obtain ⟨m, hm, hsegm⟩ := dumpsV_obj_shape_seg fs hbc
  have hT : stripList ((c0 :: p) ++ (dumpsV (.obj fs) ++ s))
      = (c0 :: p) ++ (dumpsV (.obj fs) ++ s) :=
    stripList_id_of _ (fun c hc => by
      rw [show ((c0 :: p) ++ (dumpsV (JVal.obj fs) ++ s)).head? = some c0 from rfl] at hc
      rw [← Option.some.inj hc]
      exact hpw) hlast
  have hrepl := replaceList_id fencePat fenceRep _ hfence
  have hclean : cleanedText (String.mk ((c0 :: p) ++ (dumpsV (.obj fs) ++ s)))
      = (c0 :: p) ++ (dumpsV (.obj fs) ++ s) := by
    simp only [cleanedText]
    rw [hT, hrepl, if_neg (fun hpre => by
      rw [show (c0 :: p) ++ (dumpsV (JVal.obj fs) ++ s)
          = c0 :: (p ++ (dumpsV (JVal.obj fs) ++ s)) from rfl,
        fenceRep_not_prefix c0 htick] at hpre
      exact Bool.false_ne_true hpre)]
  have hnobj : ∀ gs, ¬ loads ((c0 :: p) ++ (dumpsV (.obj fs) ++ s)) = some (.obj gs) := by
    intro gs hl
    obtain ⟨cs, hcs⟩ := loads_obj_head _ gs hl
    rw [show (c0 :: p) ++ (dumpsV (JVal.obj fs) ++ s)
        = c0 :: (p ++ (dumpsV (JVal.obj fs) ++ s)) from rfl] at hcs
    rw [List.dropWhile_cons, if_neg (by
      rw [jsonWs_pyWs c0 hpw]
      exact Bool.false_ne_true)] at hcs
    exact hpl c0 (List.mem_cons_self _ _) (List.cons.inj hcs).1
  have hscan : extractScan ((c0 :: p) ++ (dumpsV (.obj fs) ++ s))
      (String.mk ((c0 :: p) ++ (dumpsV (.obj fs) ++ s)))
      (bracePositions ((c0 :: p) ++ (dumpsV (.obj fs) ++ s))) = .ok fs := by
    unfold bracePositions
    rw [bracePosGo_append_free (c0 :: p) (dumpsV (.obj fs) ++ s) 0 hpl]
    rw [show (0 : Nat) + (c0 :: p).length = (c0 :: p).length from by omega]
    rw [hm]
    rw [show (lbrace :: (m ++ [rbrace])) ++ s = lbrace :: ((m ++ [rbrace]) ++ s) from rfl]
    rw [show bracePosGo (lbrace :: ((m ++ [rbrace]) ++ s)) (c0 :: p).length
        = (c0 :: p).length :: bracePosGo ((m ++ [rbrace]) ++ s) ((c0 :: p).length + 1)
      from by rw [bracePosGo.eq_def]; dsimp only; rw [if_pos rfl]]
    rw [extractScan.eq_def]
    dsimp only
    rw [List.drop_left]
    rw [innerScan_at m s fs hsegm (by rw [← hm]; exact loads_dumpsV _ hcan)]
  simp only [extractJsonDict]
  rw [hclean]
  cases hv : loads ((c0 :: p) ++ (dumpsV (.obj fs) ++ s)) with
  | none => exact hscan
  | some v =>
    cases v with
    | obj gs => exact absurd hv (hnobj gs)
    | null => exact hscan
    | bool b => exact hscan
    | num n => exact hscan
    | str s2 => exact hscan
    | arr xs => exact hscan

/-- Fenced extraction: a canonical mapping serialized inside a
fenced code block tagged json is recovered, provided the fence tag occurs
nowhere in the body. -/
theorem extract_fenced (fs : JObj)
    (hcan : canonicalFields fs = true)
    (hfence : ¬ List.IsInfix fencePat
      ('\n' :: (dumpsV (.obj fs) ++ '\n' :: fenceRep))) :
    extractJsonDict (String.mk
      (fencePat ++ '\n' :: (dumpsV (.obj fs) ++ '\n' :: fenceRep))) = .ok fs := by
  obtain ⟨m, hm⟩ := dumpsV_obj_shape fs
  have hfp : fencePat = btick :: "``json".data := by decide
  have hshape : fencePat ++ '\n' :: (dumpsV (.obj fs) ++ '\n' :: fenceRep)
      = btick :: (("``json".data ++ '\n' :: (dumpsV (.obj fs)
          ++ ['\n', btick, btick])) ++ [btick]) := by
    rw [show ('\n' :: fenceRep : List Char) = ['\n', btick, btick, btick] from by decide,
      hfp]
    simp [List.cons_append, List.append_assoc]
  have hstrip : stripList (fencePat ++ '\n' :: (dumpsV (.obj fs) ++ '\n' :: fenceRep))
      = fencePat ++ '\n' :: (dumpsV (.obj fs) ++ '\n' :: fenceRep) := by
    rw [hshape]
    exact stripList_id btick btick _ (by decide) (by decide)
  have hrepl := replaceList_prefix ('\n' :: (dumpsV (.obj fs) ++ '\n' :: fenceRep)) hfence
  have hclean : cleanedText (String.mk
      (fencePat ++ '\n' :: (dumpsV (.obj fs) ++ '\n' :: fenceRep)))
      = dumpsV (.obj fs) := by
    simp only [cleanedText]
    rw [hstrip, hrepl]
    rw [if_pos (List.isPrefixOf_iff_prefix.mpr
      ⟨'\n' :: (dumpsV (.obj fs) ++ '\n' :: fenceRep), rfl⟩)]
    rw [show fenceRep ++ '\n' :: (dumpsV (.obj fs) ++ '\n' :: fenceRep)
        = btick :: btick :: btick :: '\n' :: (dumpsV (.obj fs) ++ '\n' :: fenceRep)
      from by rw [show fenceRep = [btick, btick, btick] from by decide]; rfl]
    unfold trimLeftBy
    rw [List.dropWhile_cons, if_pos (by decide), List.dropWhile_cons, if_pos (by decide),
      List.dropWhile_cons, if_pos (by decide), List.dropWhile_cons, if_neg (by decide)]
    unfold trimRightBy
    have hrev : (('\n' : Char) :: (dumpsV (.obj fs) ++ '\n' :: fenceRep)).reverse
        = btick :: btick :: btick :: '\n' :: ((dumpsV (.obj fs)).reverse ++ ['\n']) := by
      rw [List.reverse_cons, List.reverse_append,
        show (('\n' : Char) :: fenceRep).reverse = [btick, btick, btick, '\n'] from by decide]
      simp
    rw [hrev]
    rw [List.dropWhile_cons, if_pos (by decide), List.dropWhile_cons, if_pos (by decide),
      List.dropWhile_cons, if_pos (by decide), List.dropWhile_cons, if_neg (by decide)]
    rw [show (('\n' : Char) :: ((dumpsV (JVal.obj fs)).reverse ++ ['\n'])).reverse
        = '\n' :: (dumpsV (JVal.obj fs) ++ ['\n']) from by simp]
    rw [hm]
    rw [show (lbrace :: (m ++ [rbrace])) ++ ['\n']
        = (lbrace :: (m ++ [rbrace])) ++ ['\n'] from rfl]
    rw [show ('\n' : Char) :: ((lbrace :: (m ++ [rbrace])) ++ ['\n'])
        = '\n' :: ((lbrace :: (m ++ [rbrace])) ++ ['\n']) from rfl]
    exact stripList_wrap '\n' '\n' lbrace rbrace m (by decide) (by decide)
      (by decide) (by decide)
  simp only [extractJsonDict]
  rw [hclean, loads_dumpsV (.obj fs) hcan]


/-- C2: embedded-object extraction.  A serialized mapping is recovered from
surrounding prose when the prose before it has no opening brace, no leading
whitespace or backtick, the text does not end in whitespace, the mapping is
canonical and keeps braces out of its strings, and the fence tag occurs
nowhere; a mapping inside a json-tagged fenced block is recovered under the
same fence-tag condition; and the leftmost candidate that parses as a
mapping wins, shown both when an earlier-starting candidate succeeds and
when it fails and is skipped.  The refinement below shows the spec's
unconditional claim fails for arbitrary prose. -/
theorem embedded_object_extraction :
    (∀ (fs : JObj) (c0 : Char) (p s : List Char),
      canonicalFields fs = true → braceCleanFields fs = true →
      pyWs c0 = false → ¬ c0 = btick →
      (∀ c ∈ c0 :: p, ¬ c = lbrace) →
      (∀ c, ((c0 :: p) ++ (dumpsV (.obj fs) ++ s)).getLast? = some c →
        pyWs c = false) →
      ¬ List.IsInfix fencePat ((c0 :: p) ++ (dumpsV (.obj fs) ++ s)) →
      extractJsonDict (String.mk ((c0 :: p) ++ (dumpsV (.obj fs) ++ s))) = .ok fs) ∧
    (∀ fs : JObj, canonicalFields fs = true →
      ¬ List.IsInfix fencePat ('\n' :: (dumpsV (.obj fs) ++ '\n' :: fenceRep)) →
      extractJsonDict (String.mk
        (fencePat ++ '\n' :: (dumpsV (.obj fs) ++ '\n' :: fenceRep))) = .ok fs) ∧
    extractJsonDict "\x7b\"a\": 1\x7d \x7b\"b\": 2\x7d" = .ok [("a", JVal.num 1)] ∧
    extractJsonDict "\x7bbad\x7d \x7b\"ok\": 2\x7d" = .ok [("ok", JVal.num 2)] :=
  ⟨fun fs c0 p s h1 h2 h3 h4 h5 h6 h7 =>
      extract_embedded_prose fs c0 p s h1 h2 h3 h4 h5 h6 h7,
    fun fs h1 h2 => extract_fenced fs h1 h2, rfl, rfl⟩

/-- C2 counterexample: with arbitrary prose the recovery fails — a closing
brace inside a string value derails the depth scan, and the only candidate
parse is a truncated, invalid fragment. -/
theorem extract_embedded_counterexample :
    extractJsonDict "x \x7b\"a\": \"\x7d\"\x7d"
      = .error (parseErrorMsg "x \x7b\"a\": \"\x7d\"\x7d") := rfl

/-- C2 witness: the prose and fence conjuncts at concrete inputs — the text
See: \x7b"a": 1\x7d done and a json-tagged fenced block. -/
theorem embedded_object_extraction_witness :
    extractJsonDict (String.mk (('S' :: "ee: ".data)
        ++ (dumpsV (.obj [("a", JVal.num 1)]) ++ " done".data)))
      = .ok [("a", JVal.num 1)] ∧
    extractJsonDict (String.mk (fencePat ++ '\n'
        :: (dumpsV (.obj [("k", JVal.bool true)]) ++ '\n' :: fenceRep)))
      = .ok [("k", JVal.bool true)] :=
  ⟨embedded_object_extraction.1 [("a", JVal.num 1)] 'S' "ee: ".data " done".data
      (by decide) (by decide) (by decide) (by decide) (by decide)
      (fun c hc => by rw [← Option.some.inj hc]; decide) (by decide),
    embedded_object_extraction.2.1 [("k", JVal.bool true)] (by decide) (by decide)⟩


end Paradox
